import Mathlib

/-!
# Flow keyword of the detection engine (detect-flow.c) and the sip.request_line buffer

A shallow embedding of `DetectFlowParse`, `DetectFlowMatch` and `DetectFlowSetup`, together
with the fragment of PCRE matching that `PARSE_REGEX` relies on, and of `GetData` of
detect-sip-request-line.c.

Conventions.
* A C string is represented by the characters in front of its terminating NUL, so the
  subject handed to `pcre_exec` (pointer plus `strlen`) is the whole represented string.
* The class `\s` of `PARSE_REGEX` depends on the PCRE library that the engine is linked
  with: HT, LF, FF, CR and space belong to it in every release, VT belongs to it from
  libpcre 8.34 on and in PCRE2 only. The sources at hand do not fix the release, so the
  parser and everything derived from the pattern take a flag `vt` (VT is in `\s`), and the
  properties are shown for both values.
* The `FLOW_PKT_*` bit masks live in a header that is not part of the sources at hand.
  They are taken as a parameter `K : FlowPkt`; the properties that the parser needs from
  them (every mask is non-zero and no two masks share a bit) are stated by
  `FlowPkt.Separate`.
* The fields `flags` and `match_cnt` of `DetectFlowData` are kept as natural numbers; the
  parser sets at most three masks and counts at most three options. The counter of
  `DetectFlowMatch` is reduced modulo 256 as the 8 bit variable of the source is.
* `malloc` is taken to succeed in `DetectFlowParse`; `DetectFlowSetup` has the outcome of
  `SigMatchAlloc` as an argument.
* Functions that the two files call and that are defined elsewhere (`SigMatchAppend`,
  `InspectionBufferSetup`, `InspectionBufferApplyTransforms`, the accessor
  `rs_sip_tx_get_request_line`) are parameters of the embedding.

Layout: the definitions come first (the embedding, then the deterministic reading of the
pattern and the vocabulary used to state properties), the lemmas and the numbered
properties C1, C2, ... follow.
-/

namespace Suricata

/-! ## The PCRE fragment -/

/-- Pattern syntax tree: just the constructs that occur in `PARSE_REGEX`. -/
inductive Pcre where
  /-- The anchor `^` (no multiline option). -/
  | bol : Pcre
  /-- The anchor `$` (no multiline option, no dollar-endonly option). -/
  | eol : Pcre
  /-- One literal character. -/
  | chr : Char → Pcre
  /-- Greedy `x*` on a character class `x`. -/
  | star : (Char → Bool) → Pcre
  /-- Greedy `x+` on a character class `x`. -/
  | plus : (Char → Bool) → Pcre
  /-- Capturing group with its number. -/
  | cap : Nat → Pcre → Pcre
  /-- Greedy `(?: r )?`. -/
  | opt : Pcre → Pcre
  /-- Concatenation. -/
  | seq : Pcre → Pcre → Pcre

/-- Capture table: group number and captured text, most recent first. -/
abbrev Caps := List (Nat × List Char)

/-- Greedy repetition of a character class with backtracking: the longest run is tried
first and one character is given back each time the continuation `k` fails. The
first argument of `k` is the subject offset, the second the unread subject. -/
def starRun {α : Type} (cls : Char → Bool) :
    Nat → List Char → (Nat → List Char → Option α) → Option α
  | pos, [], k => k pos []
  | pos, c :: cs, k =>
    if cls c then
      match starRun cls (pos + 1) cs k with
      | some r => some r
      | none => k pos (c :: cs)
    else k pos (c :: cs)

/-- Backtracking matcher in continuation-passing style. `Pcre.run r pos s caps k` matches
`r` at offset `pos`, where `s` is the unread subject, and hands every way of matching, in
PCRE priority order, to `k` until `k` accepts. -/
def Pcre.run : Pcre → Nat → List Char → Caps →
    (Nat → List Char → Caps → Option Caps) → Option Caps
  | .bol, pos, s, caps, k => if pos = 0 then k pos s caps else none
  | .eol, pos, s, caps, k => if s = [] ∨ s = ['\n'] then k pos s caps else none
  | .chr c, pos, s, caps, k =>
    match s with
    | d :: s' => if d = c then k (pos + 1) s' caps else none
    | [] => none
  | .star cls, pos, s, caps, k => starRun cls pos s (fun p s' => k p s' caps)
  | .plus cls, pos, s, caps, k =>
    match s with
    | d :: s' => if cls d then starRun cls (pos + 1) s' (fun p s' => k p s' caps) else none
    | [] => none
  | .cap n r, pos, s, caps, k =>
    r.run pos s caps (fun p s' caps' => k p s' ((n, s.take (p - pos)) :: caps'))
  | .opt r, pos, s, caps, k =>
    match r.run pos s caps k with
    | some x => some x
    | none => k pos s caps
  | .seq r₁ r₂, pos, s, caps, k =>
    r₁.run pos s caps (fun p s' caps' => r₂.run p s' caps' k)

/-- The accepting continuation: the pattern is used up, the capture table is the result. -/
def accept : Nat → List Char → Caps → Option Caps := fun _ _ caps => some caps

/-- The unanchored search of `pcre_exec`: try a match at the current offset, and move on
by one character when there is none. -/
def execFrom (re : Pcre) : Nat → List Char → Option Caps
  | pos, [] => re.run pos [] [] accept
  | pos, c :: cs =>
    match re.run pos (c :: cs) [] accept with
    | some x => some x
    | none => execFrom re (pos + 1) cs

/-- Highest group number that is set in a capture table (0 stands for the whole match). -/
def Caps.highest : Caps → Nat
  | [] => 0
  | (n, _) :: rest => max n (Caps.highest rest)

/-- Model of `pcre_exec` with start offset 0, no options and an output vector that is large
enough: on a match the return value is one more than the highest numbered group that was
set; without a match it is `PCRE_ERROR_NOMATCH`, that is `-1`. -/
def pcre_exec (re : Pcre) (subject : List Char) : Int × Caps :=
  match execFrom re 0 subject with
  | some caps => ((Caps.highest caps : Int) + 1, caps)
  | none => (-1, [])

/-- Model of `pcre_get_substring`: `none` stands for a negative result (there is no group of
that number in the vector); a group below `stringcount` that was not set gives the empty
string. -/
def pcre_get_substring (ov : Caps) (stringcount : Int) (n : Nat) : Option (List Char) :=
  if (n : Int) < stringcount then some ((ov.lookup n).getD []) else none

/-- The class `\s` of the PCRE library that the engine is linked with. HT, LF, FF, CR and
space belong to it in every release. VT (code 11) belongs to it from libpcre 8.34 on and in
PCRE2, and does not in the releases of libpcre before 8.34. The sources at hand do not fix
the release, so `vt` tells whether VT is in the class and every property is shown for both
values. -/
def pcreSpace (vt : Bool) (c : Char) : Bool :=
  c = '\t' || c = '\n' || c = '\x0c' || c = '\r' || c = ' ' || (vt && c = '\x0b')

/-- The class `[A-z_]`: code points 65 to 122 (the underscore lies inside that range). -/
def classAz (c : Char) : Bool :=
  (65 ≤ c.toNat && c.toNat ≤ 122) || c = '_'

/-- The sub-pattern `,\s*([A-z_]+)` with capture group `n`. -/
def commaArg (vt : Bool) (n : Nat) : Pcre :=
  .seq (.chr ',') (.seq (.star (pcreSpace vt)) (.cap n (.plus classAz)))

/-- The pattern
`^\s*([A-z_]+)\s*(?:,\s*([A-z_]+))?\s*(?:,\s*([A-z_]+))?\s*$`. -/
def PARSE_REGEX (vt : Bool) : Pcre :=
  .seq .bol
  (.seq (.star (pcreSpace vt))
  (.seq (.cap 1 (.plus classAz))
  (.seq (.star (pcreSpace vt))
  (.seq (.opt (commaArg vt 2))
  (.seq (.star (pcreSpace vt))
  (.seq (.opt (commaArg vt 3))
  (.seq (.star (pcreSpace vt)) .eol)))))))

/-! ## Data -/

/-- The `FLOW_PKT_*` masks used by the flow keyword. -/
structure FlowPkt where
  FLOW_PKT_TOSERVER : Nat
  FLOW_PKT_TOCLIENT : Nat
  FLOW_PKT_ESTABLISHED : Nat
  FLOW_PKT_STATELESS : Nat
  FLOW_PKT_NOSTREAM : Nat
  FLOW_PKT_STREAMONLY : Nat
  deriving DecidableEq, Repr

/-- List of the six masks. -/
def FlowPkt.masks (K : FlowPkt) : List Nat :=
  [K.FLOW_PKT_TOSERVER, K.FLOW_PKT_TOCLIENT, K.FLOW_PKT_ESTABLISHED, K.FLOW_PKT_STATELESS,
   K.FLOW_PKT_NOSTREAM, K.FLOW_PKT_STREAMONLY]

/-- The masks form a bit set: none is zero and no two of them have a bit in common. -/
def FlowPkt.Separate (K : FlowPkt) : Prop :=
  (∀ a ∈ K.masks, a ≠ 0) ∧ K.masks.Pairwise (fun a b => a &&& b = 0)

instance (K : FlowPkt) : Decidable K.Separate := by
  unfold FlowPkt.Separate; infer_instance

/-- One assignment of single bits to the masks, used for concrete evaluation. -/
def flowPktBits : FlowPkt :=
  ⟨0x01, 0x02, 0x04, 0x08, 0x40, 0x80⟩

/-- The parsed flow options: flags to match and the number of matches needed. -/
structure DetectFlowData where
  flags : Nat
  match_cnt : Nat
  deriving DecidableEq, Repr

/-- The part of a packet the flow keyword reads. -/
structure Packet where
  flowflags : Nat
  deriving DecidableEq, Repr

/-- An entry of a signature's match list: keyword type and keyword context. -/
structure SigMatch where
  type : Nat
  ctx : DetectFlowData
  deriving DecidableEq, Repr

/-! ## DetectFlowMatch -/

/-- Embedding of `DetectFlowMatch`: 1 for a match, 0 for no match. The counter is an
unsigned 8 bit integer. The thread, pattern matcher thread and signature arguments are
not read. -/
def DetectFlowMatch {ThreadVars PatternMatcherThread Signature : Type} (K : FlowPkt)
    (_t : ThreadVars) (_pmt : PatternMatcherThread) (p : Packet) (_s : Signature)
    (m : SigMatch) : Int :=
  let cnt : Nat := 0
  let fd := m.ctx
  let cnt :=
    if fd.flags &&& K.FLOW_PKT_TOSERVER ≠ 0 ∧ p.flowflags &&& K.FLOW_PKT_TOSERVER ≠ 0 then
      (cnt + 1) % 256
    else if fd.flags &&& K.FLOW_PKT_TOCLIENT ≠ 0 ∧ p.flowflags &&& K.FLOW_PKT_TOCLIENT ≠ 0 then
      (cnt + 1) % 256
    else cnt
  let cnt :=
    if fd.flags &&& K.FLOW_PKT_ESTABLISHED ≠ 0 ∧ p.flowflags &&& K.FLOW_PKT_ESTABLISHED ≠ 0 then
      (cnt + 1) % 256
    else if fd.flags &&& K.FLOW_PKT_STATELESS ≠ 0 then
      (cnt + 1) % 256
    else cnt
  if fd.match_cnt = cnt then 1 else 0

/-- The state of a call of `DetectFlowMatch`: the local counter `cnt`, the packet behind the
pointer `p` and the list entry behind the pointer `m`. The pointer `fd` is `m->ctx`, so the
flow data that the call sees is the field `ctx` of the entry. -/
structure MatchState where
  cnt : Nat
  p : Packet
  m : SigMatch
  deriving DecidableEq, Repr

/-- Embedding of `DetectFlowMatch` with the memory behind its pointers passed along, one
statement of the source after the other: the return value, and the packet and the list
entry (with the flow data) as they are when the function returns. The statements of the
source assign to the locals `cnt` and `ret` only. -/
def DetectFlowMatchMem {ThreadVars PatternMatcherThread Signature : Type} (K : FlowPkt)
    (_t : ThreadVars) (_pmt : PatternMatcherThread) (p : Packet) (_s : Signature)
    (m : SigMatch) : Int × Packet × SigMatch :=
  let st : MatchState := ⟨0, p, m⟩
  let st : MatchState :=
    if st.m.ctx.flags &&& K.FLOW_PKT_TOSERVER ≠ 0 ∧
        st.p.flowflags &&& K.FLOW_PKT_TOSERVER ≠ 0 then
      { st with cnt := (st.cnt + 1) % 256 }
    else if st.m.ctx.flags &&& K.FLOW_PKT_TOCLIENT ≠ 0 ∧
        st.p.flowflags &&& K.FLOW_PKT_TOCLIENT ≠ 0 then
      { st with cnt := (st.cnt + 1) % 256 }
    else st
  let st : MatchState :=
    if st.m.ctx.flags &&& K.FLOW_PKT_ESTABLISHED ≠ 0 ∧
        st.p.flowflags &&& K.FLOW_PKT_ESTABLISHED ≠ 0 then
      { st with cnt := (st.cnt + 1) % 256 }
    else if st.m.ctx.flags &&& K.FLOW_PKT_STATELESS ≠ 0 then
      { st with cnt := (st.cnt + 1) % 256 }
    else st
  let ret : Int := if st.m.ctx.match_cnt = st.cnt then 1 else 0
  (ret, st.p, st.m)

/-! ## DetectFlowParse -/

/-- Body of the option loop of `DetectFlowParse` for one argument: `none` is the jump to
the error label, otherwise the flag is set and `match_cnt` incremented. -/
def DetectFlowParseArg (K : FlowPkt) (fd : DetectFlowData) (arg : List Char) :
    Option DetectFlowData :=
  if arg = "established".data then
    if fd.flags &&& K.FLOW_PKT_ESTABLISHED ≠ 0 then none
    else if fd.flags &&& K.FLOW_PKT_STATELESS ≠ 0 then none
    else some ⟨fd.flags ||| K.FLOW_PKT_ESTABLISHED, fd.match_cnt + 1⟩
  else if arg = "stateless".data then
    if fd.flags &&& K.FLOW_PKT_STATELESS ≠ 0 then none
    else if fd.flags &&& K.FLOW_PKT_ESTABLISHED ≠ 0 then none
    else some ⟨fd.flags ||| K.FLOW_PKT_STATELESS, fd.match_cnt + 1⟩
  else if arg = "to_client".data ∨ arg = "from_server".data then
    if fd.flags &&& K.FLOW_PKT_TOCLIENT ≠ 0 then none
    else if fd.flags &&& K.FLOW_PKT_TOSERVER ≠ 0 then none
    else some ⟨fd.flags ||| K.FLOW_PKT_TOCLIENT, fd.match_cnt + 1⟩
  else if arg = "to_server".data ∨ arg = "from_client".data then
    if fd.flags &&& K.FLOW_PKT_TOSERVER ≠ 0 then none
    else if fd.flags &&& K.FLOW_PKT_TOCLIENT ≠ 0 then none
    else some ⟨fd.flags ||| K.FLOW_PKT_TOSERVER, fd.match_cnt + 1⟩
  else if arg = "stream_only".data then
    if fd.flags &&& K.FLOW_PKT_STREAMONLY ≠ 0 then none
    else if fd.flags &&& K.FLOW_PKT_NOSTREAM ≠ 0 then none
    else some ⟨fd.flags ||| K.FLOW_PKT_STREAMONLY, fd.match_cnt + 1⟩
  else if arg = "no_stream".data then
    if fd.flags &&& K.FLOW_PKT_NOSTREAM ≠ 0 then none
    else if fd.flags &&& K.FLOW_PKT_STREAMONLY ≠ 0 then none
    else some ⟨fd.flags ||| K.FLOW_PKT_NOSTREAM, fd.match_cnt + 1⟩
  else none

/-- The option loop of `DetectFlowParse` over the entries `args[0 .. ret-2]`; an entry that
is `NULL` is skipped. -/
def DetectFlowParseLoop (K : FlowPkt) :
    List (Option (List Char)) → DetectFlowData → Option DetectFlowData
  | [], fd => some fd
  | none :: rest, fd => DetectFlowParseLoop K rest fd
  | some arg :: rest, fd =>
    match DetectFlowParseArg K fd arg with
    | none => none
    | some fd' => DetectFlowParseLoop K rest fd'

/-- The substring extraction of `DetectFlowParse`: fills `args[0..2]` from the groups 1 to
3 as far as `ret` allows; `none` is the jump to the error label. -/
def DetectFlowParseArgs (ov : Caps) (ret : Int) : Option (List (Option (List Char))) :=
  if ret > 1 then
    match pcre_get_substring ov ret 1 with
    | none => none
    | some a0 =>
      match (if ret > 2 then (pcre_get_substring ov ret 2).map some else some none) with
      | none => none
      | some a1 =>
        match (if ret > 3 then (pcre_get_substring ov ret 3).map some else some none) with
        | none => none
        | some a2 => some [some a0, a1, a2]
  else some [none, none, none]

/-- Embedding of `DetectFlowParse`: `none` is the `NULL` result. The flag `vt` tells whether
the class `\s` of the PCRE library behind `pcre_exec` holds VT. -/
def DetectFlowParse (vt : Bool) (K : FlowPkt) (flowstr : String) : Option DetectFlowData :=
  let r := pcre_exec (PARSE_REGEX vt) flowstr.data
  let ret := r.1
  if ret < 1 ∨ ret > 4 then none
  else
    match DetectFlowParseArgs r.2 ret with
    | none => none
    | some args => DetectFlowParseLoop K (args.take (ret - 1).toNat) ⟨0, 0⟩

/-! ## Deterministic reading of PARSE_REGEX -/

/-- The pattern tail `\s*$`. -/
def reTail5 (vt : Bool) : Pcre := .seq (.star (pcreSpace vt)) .eol
/-- The pattern tail `(?:,\s*([A-z_]+))?\s*$`. -/
def reTail4 (vt : Bool) : Pcre := .seq (.opt (commaArg vt 3)) (reTail5 vt)
/-- The pattern tail `\s*(?:,\s*([A-z_]+))?\s*$`. -/
def reTail3 (vt : Bool) : Pcre := .seq (.star (pcreSpace vt)) (reTail4 vt)
/-- The pattern tail behind the first `\s*` that follows group 1. -/
def reTail2 (vt : Bool) : Pcre := .seq (.opt (commaArg vt 2)) (reTail3 vt)
/-- The pattern tail behind group 1. -/
def reTail1 (vt : Bool) : Pcre := .seq (.star (pcreSpace vt)) (reTail2 vt)

/-- What `\s*$` comes to: the rest of the subject is white space. -/
def tail5 (vt : Bool) (caps : Caps) (s : List Char) : Option Caps :=
  if s.dropWhile (pcreSpace vt) = [] then some caps else none

/-- What `,\s*([A-z_]+)` followed by `k` comes to, with the longest white space run and the
longest word. -/
def commaWord (vt : Bool) (n : Nat) (k : Caps → List Char → Option Caps) (caps : Caps)
    (s : List Char) : Option Caps :=
  match s with
  | [] => none
  | d :: r =>
    if d = ',' then
      if (r.dropWhile (pcreSpace vt)).takeWhile classAz = [] then none
      else k ((n, (r.dropWhile (pcreSpace vt)).takeWhile classAz) :: caps)
        ((r.dropWhile (pcreSpace vt)).dropWhile classAz)
    else none

/-- What `(?:,\s*([A-z_]+))?\s*$` comes to. -/
def tail4 (vt : Bool) (caps : Caps) (s : List Char) : Option Caps :=
  if s.head? = some ',' then commaWord vt 3 (tail5 vt) caps s else tail5 vt caps s

/-- What `\s*(?:,\s*([A-z_]+))?\s*$` comes to. -/
def tail3 (vt : Bool) (caps : Caps) (s : List Char) : Option Caps :=
  tail4 vt caps (s.dropWhile (pcreSpace vt))

/-- What `(?:,\s*([A-z_]+))?\s*(?:,\s*([A-z_]+))?\s*$` comes to. -/
def tail2 (vt : Bool) (caps : Caps) (s : List Char) : Option Caps :=
  if s.head? = some ',' then commaWord vt 2 (tail3 vt) caps s else tail3 vt caps s

/-- What the pattern behind the first group comes to. -/
def tail1 (vt : Bool) (caps : Caps) (s : List Char) : Option Caps :=
  tail2 vt caps (s.dropWhile (pcreSpace vt))

/-- What the whole pattern comes to at offset 0. -/
def lexCaps (vt : Bool) (s : List Char) : Option Caps :=
  if (s.dropWhile (pcreSpace vt)).takeWhile classAz = [] then none
  else tail1 vt [(1, (s.dropWhile (pcreSpace vt)).takeWhile classAz)]
    ((s.dropWhile (pcreSpace vt)).dropWhile classAz)

/-! ## Tokenising view of the pattern -/

/-- What `\s*([A-z_]+)\s*` reads: the word and the subject behind the white space that
follows it. -/
def lexWord (vt : Bool) (s : List Char) : Option (List Char × List Char) :=
  if (s.dropWhile (pcreSpace vt)).takeWhile classAz = [] then none
  else some ((s.dropWhile (pcreSpace vt)).takeWhile classAz,
    ((s.dropWhile (pcreSpace vt)).dropWhile classAz).dropWhile (pcreSpace vt))

/-- At most `n` words separated by commas, up to the end of the subject. -/
def lexList (vt : Bool) : Nat → List Char → Option (List (List Char))
  | 0, _ => none
  | n + 1, s =>
    match lexWord vt s with
    | none => none
    | some (w, []) => some [w]
    | some (w, d :: t) => if d = ',' then (lexList vt n t).map (fun ws => w :: ws) else none

/-- The capture table that belongs to a list of words: group `i + 1` holds word `i`. -/
def capsOf (ws : List (List Char)) : Caps :=
  (ws.enum.map (fun iw => (iw.1 + 1, iw.2))).reverse

/-- The pieces of a string between its commas. -/
def splitComma : List Char → List (List Char)
  | [] => [[]]
  | c :: cs =>
    if c = ',' then [] :: splitComma cs
    else (c :: (splitComma cs).headD []) :: (splitComma cs).tail

/-- Pieces put together again with commas in between. -/
def joinComma : List (List Char) → List Char
  | [] => []
  | [c] => c
  | c :: c' :: cs => c ++ ',' :: joinComma (c' :: cs)

/-- A piece with the white space around it removed, when what is left is one word of the
class `[A-z_]`. -/
def trimWord (vt : Bool) (c : List Char) : Option (List Char) :=
  match lexWord vt c with
  | some (w, []) => some w
  | _ => none

/-- All pieces trimmed; `none` as soon as one of them is not a padded word. -/
def trimWords (vt : Bool) : List (List Char) → Option (List (List Char))
  | [] => some []
  | c :: cs =>
    match trimWord vt c, trimWords vt cs with
    | some w, some ws => some (w :: ws)
    | _, _ => none

/-- The option loop on a list of words, none of which is `NULL`. -/
def parseWords (K : FlowPkt) (ws : List (List Char)) (fd : DetectFlowData) :
    Option DetectFlowData :=
  DetectFlowParseLoop K (ws.map some) fd

/-- The pieces of an input trimmed to words and handed to the option loop. -/
def parsePieces (vt : Bool) (K : FlowPkt) (chunks : List (List Char)) (fd : DetectFlowData) :
    Option DetectFlowData :=
  (trimWords vt chunks).bind (fun ws => parseWords K ws fd)

/-! ## The vocabulary of the flow keyword -/

/-- The eight option words that `DetectFlowParse` compares its arguments with. -/
inductive FlowToken where
  | established | stateless | to_client | from_server | to_server | from_client
  | stream_only | no_stream
  deriving DecidableEq, Repr

/-- The three groups of options that exclude each other. -/
inductive FlowGroup where
  | state | direction | stream
  deriving DecidableEq, Repr

/-- The string literal of an option word. -/
def FlowToken.name : FlowToken → String
  | .established => "established"
  | .stateless => "stateless"
  | .to_client => "to_client"
  | .from_server => "from_server"
  | .to_server => "to_server"
  | .from_client => "from_client"
  | .stream_only => "stream_only"
  | .no_stream => "no_stream"

/-- The mask that the branch of an option word sets. -/
def FlowToken.flag (K : FlowPkt) : FlowToken → Nat
  | .established => K.FLOW_PKT_ESTABLISHED
  | .stateless => K.FLOW_PKT_STATELESS
  | .to_client => K.FLOW_PKT_TOCLIENT
  | .from_server => K.FLOW_PKT_TOCLIENT
  | .to_server => K.FLOW_PKT_TOSERVER
  | .from_client => K.FLOW_PKT_TOSERVER
  | .stream_only => K.FLOW_PKT_STREAMONLY
  | .no_stream => K.FLOW_PKT_NOSTREAM

/-- The group of an option word. -/
def FlowToken.group : FlowToken → FlowGroup
  | .established => .state
  | .stateless => .state
  | .to_client => .direction
  | .from_server => .direction
  | .to_server => .direction
  | .from_client => .direction
  | .stream_only => .stream
  | .no_stream => .stream

/-- The two masks of a group taken together. -/
def FlowPkt.groupMask (K : FlowPkt) : FlowGroup → Nat
  | .state => K.FLOW_PKT_ESTABLISHED ||| K.FLOW_PKT_STATELESS
  | .direction => K.FLOW_PKT_TOCLIENT ||| K.FLOW_PKT_TOSERVER
  | .stream => K.FLOW_PKT_STREAMONLY ||| K.FLOW_PKT_NOSTREAM

/-- The union of the masks of a list of option words. -/
def flagsOf (K : FlowPkt) (toks : List FlowToken) : Nat :=
  toks.foldl (fun f t => f ||| t.flag K) 0

/-- A mask is set in a flag word: the C test `flags & mask`. -/
def hasFlag (flags mask : Nat) : Prop := flags &&& mask ≠ 0

instance (flags mask : Nat) : Decidable (hasFlag flags mask) := by
  unfold hasFlag; infer_instance

/-- The option word that stands for a word and its synonym. -/
def FlowToken.canon : FlowToken → FlowToken
  | .from_server => .to_client
  | .from_client => .to_server
  | t => t

/-! ## Notions used to state the properties -/

/-- A piece of input is the word `w` with white space around it, white space being the
class `\s` of the library at hand (`pcreSpace vt`). -/
def IsPadded (vt : Bool) (c w : List Char) : Prop :=
  ∃ pre post : List Char,
    (∀ x ∈ pre, pcreSpace vt x = true) ∧ (∀ x ∈ post, pcreSpace vt x = true) ∧
    c = pre ++ w ++ post

/-- Option words written one after another, each but the first with a separator character
in front of it. -/
def sepJoin (t : FlowToken) (rest : List (Char × FlowToken)) : List Char :=
  t.name.data ++ rest.flatMap (fun ct => ct.1 :: ct.2.name.data)

/-- White space in the sense of the C function `isspace`: space, HT, LF, VT, FF, CR. -/
def isspace (c : Char) : Bool :=
  c = ' ' || c = '\t' || c = '\n' || c = '\x0b' || c = '\x0c' || c = '\r'

/-- The count that the specification of the matcher describes: one unit for the direction
group when the condition asks for the direction of the packet, one unit for the state group
when the condition asks for an established flow and the packet has one, or else when the
condition is stateless. -/
def specCount (K : FlowPkt) (flags flowflags : Nat) : Nat :=
  (if (hasFlag flags K.FLOW_PKT_TOSERVER ∧ hasFlag flowflags K.FLOW_PKT_TOSERVER) ∨
      (hasFlag flags K.FLOW_PKT_TOCLIENT ∧ hasFlag flowflags K.FLOW_PKT_TOCLIENT) then 1 else 0)
  + (if (hasFlag flags K.FLOW_PKT_ESTABLISHED ∧ hasFlag flowflags K.FLOW_PKT_ESTABLISHED) ∨
      hasFlag flags K.FLOW_PKT_STATELESS then 1 else 0)

/-- One position of an option list before and after synonyms are replaced: the piece is
kept, or it is `from_server` with white space around it and becomes `to_client` with the
same white space, or it is `from_client` and becomes `to_server` in the same way. -/
def SynonymStep (vt : Bool) (a b : String) : Prop :=
  a = b ∨ ∃ pre post : List Char,
    (∀ x ∈ pre, pcreSpace vt x = true) ∧ (∀ x ∈ post, pcreSpace vt x = true) ∧
    ((a.data = pre ++ "from_server".data ++ post ∧ b.data = pre ++ "to_client".data ++ post) ∨
     (a.data = pre ++ "from_client".data ++ post ∧ b.data = pre ++ "to_server".data ++ post))

/-- Number of bits that are set in a natural number. -/
def popcount : Nat → Nat
  | 0 => 0
  | n + 1 => (n + 1) % 2 + popcount ((n + 1) / 2)
decreasing_by omega

/-- Every mask is a single bit. -/
def FlowPkt.SingleBits (K : FlowPkt) : Prop :=
  ∀ a ∈ K.masks, ∃ k : Nat, a = 2 ^ k

/-! ## DetectFlowSetup -/

/-- Embedding of `DetectFlowSetup`: the return value and the signature afterwards. The
keyword number `DETECT_FLOW` and the function `SigMatchAppend` are declared outside the
sources at hand and are parameters; `SigMatchAlloc` tells whether the allocation of the
new list entry succeeds. The detection engine context is not read. The flag `vt` is the
one of `DetectFlowParse`. -/
def DetectFlowSetup {DetectEngineCtx Signature SigMatchPtr : Type} (vt : Bool) (K : FlowPkt)
    (DETECT_FLOW : Nat) (SigMatchAlloc : Bool)
    (SigMatchAppend : Signature → SigMatchPtr → SigMatch → Signature)
    (_de_ctx : DetectEngineCtx) (s : Signature) (m : SigMatchPtr) (flowstr : String) :
    Int × Signature :=
  match DetectFlowParse vt K flowstr with
  | none => (-1, s)
  | some fd =>
    if SigMatchAlloc then (0, SigMatchAppend s m ⟨DETECT_FLOW, fd⟩)
    else (-1, s)

/-- Modelled from the spec: `SigMatchAppend`, which is not among the sources. The spec
speaks of an ordered match-chain to which the context of a keyword is attached, so the chain
is a list and the new entry goes to its end. -/
def sigMatchAppendList (s : List SigMatch) (_m : Unit) (sm : SigMatch) : List SigMatch :=
  s ++ [sm]

/-! ## The sip.request_line sticky buffer (detect-sip-request-line.c) -/

/-- What `GetData` uses from outside the file: the field `inspect` of an inspection buffer
(an address, 0 for `NULL`), the functions `InspectionBufferSetup` and
`InspectionBufferApplyTransforms` as maps on the buffer they are handed, and the accessor
`rs_sip_tx_get_request_line`, which gives its return value and the values it leaves in the
out parameters `b` and `b_len` (initialised to `NULL` and 0 by the caller). -/
structure SipBufferApi (Buf Transforms Tx : Type) where
  inspect : Buf → Nat
  InspectionBufferSetup : Buf → Nat → Nat → Buf
  InspectionBufferApplyTransforms : Buf → Transforms → Buf
  rs_sip_tx_get_request_line : Tx → Int × Nat × Nat

/-- Outcome of one call of `GetData`: the returned buffer (`none` for `NULL`), the buffers
of the thread context afterwards, and how often the accessor and the transforms were
run by the call. -/
structure GetDataResult (Buf : Type) where
  ret : Option Buf
  det_ctx : Int → Buf
  accessor_calls : Nat
  transform_calls : Nat

/-- Embedding of `GetData`. The thread context is the map from list ids to inspection
buffers that `InspectionBufferGet` reads; the buffer is changed in place in the source,
which is the update of the map here. The flow and the flow flags are not read. -/
def GetData {Buf Transforms Tx Flow : Type} (api : SipBufferApi Buf Transforms Tx)
    (det_ctx : Int → Buf) (transforms : Transforms) (_f : Flow) (_flow_flags : Nat)
    (txv : Tx) (list_id : Int) : GetDataResult Buf :=
  let buffer := det_ctx list_id
  if api.inspect buffer = 0 then
    let r := api.rs_sip_tx_get_request_line txv
    let b := r.2.1
    let b_len := r.2.2
    if r.1 ≠ 1 then ⟨none, det_ctx, 1, 0⟩
    else if b = 0 ∨ b_len = 0 then ⟨none, det_ctx, 1, 0⟩
    else
      let buffer := api.InspectionBufferSetup buffer b b_len
      let buffer := api.InspectionBufferApplyTransforms buffer transforms
      ⟨some buffer, Function.update det_ctx list_id buffer, 1, 1⟩
  else ⟨some buffer, det_ctx, 0, 0⟩

/-- A sequence of `n` calls of `GetData` in one scope (same thread context, transaction
and list id): the thread context afterwards and the number of accessor runs. -/
def GetDataCalls {Buf Transforms Tx Flow : Type} (api : SipBufferApi Buf Transforms Tx)
    (transforms : Transforms) (f : Flow) (flow_flags : Nat) (txv : Tx) (list_id : Int) :
    Nat → (Int → Buf) → (Int → Buf) × Nat
  | 0, det_ctx => (det_ctx, 0)
  | n + 1, det_ctx =>
    let r := GetData api det_ctx transforms f flow_flags txv list_id
    let rest := GetDataCalls api transforms f flow_flags txv list_id n r.det_ctx
    (rest.1, r.accessor_calls + rest.2)

/-- An inspection buffer reduced to the span that is inspected. -/
structure InspectionBuffer where
  inspect : Nat
  inspect_len : Nat
  deriving DecidableEq, Repr

/-- Modelled from the spec: `InspectionBufferSetup` and `InspectionBufferApplyTransforms`,
which are not among the sources. The set-up stores the span it is given, and a transform
pipeline is a list of maps from span to span that are applied in order; the accessor is
given by the outcome it reports for every transaction. -/
def sipApi (accessor : Int × Nat × Nat) :
    SipBufferApi InspectionBuffer (List (InspectionBuffer → InspectionBuffer)) Unit where
  inspect := fun buffer => buffer.inspect
  InspectionBufferSetup := fun _ b b_len => ⟨b, b_len⟩
  InspectionBufferApplyTransforms := fun buffer transforms =>
    transforms.foldl (fun acc tr => tr acc) buffer
  rs_sip_tx_get_request_line := fun _ => accessor

/-- A thread context in which no buffer is computed. -/
def emptyCtx : Int → InspectionBuffer := fun _ => ⟨0, 0⟩

/-! ## Character classes -/

variable {vt : Bool}

theorem pcreSpace_comma : pcreSpace vt ',' = false := by cases vt <;> rfl

theorem pcreSpace_newline : pcreSpace vt '\n' = true := by cases vt <;> rfl

theorem classAz_of_space {c : Char} (h : pcreSpace vt c = true) : classAz c = false := by
  simp only [pcreSpace, Bool.or_eq_true, Bool.and_eq_true, decide_eq_true_eq] at h
  rcases h with ((((h | h) | h) | h) | h) | ⟨_, h⟩ <;> subst h <;> rfl

theorem space_of_classAz {c : Char} (h : classAz c = true) : pcreSpace vt c = false := by
  cases hs : pcreSpace vt c
  · rfl
  · rw [classAz_of_space hs] at h; exact absurd h (by decide)

theorem ne_comma_of_classAz {c : Char} (h : classAz c = true) : c ≠ ',' := by
  rintro rfl; exact absurd h (by decide)

theorem ne_comma_of_space {c : Char} (h : pcreSpace vt c = true) : c ≠ ',' := by
  rintro rfl; rw [pcreSpace_comma] at h; exact absurd h (by decide)

/-! ## Greedy repetition -/

theorem take_length_takeWhile (p : Char → Bool) :
    ∀ s : List Char, s.take (s.takeWhile p).length = s.takeWhile p
  | [] => rfl
  | c :: cs => by
    by_cases hc : p c = true
    · simp [List.takeWhile_cons_of_pos hc, take_length_takeWhile p cs]
    · simp [List.takeWhile_cons_of_neg hc]

/-- A greedy class repetition ends up with the longest run, provided the continuation
never accepts after a shorter run what it rejects after the longest one. -/
theorem starRun_greedy {α : Type} (cls : Char → Bool) (k : Nat → List Char → Option α)
    (h : ∀ pos c cs, cls c = true →
      k (pos + ((c :: cs).takeWhile cls).length) ((c :: cs).dropWhile cls) = none →
      k pos (c :: cs) = none) :
    ∀ (s : List Char) (pos : Nat),
      starRun cls pos s k = k (pos + (s.takeWhile cls).length) (s.dropWhile cls)
  | [], pos => by simp [starRun]
  | c :: cs, pos => by
    by_cases hc : cls c = true
    · have ih := starRun_greedy cls k h cs (pos + 1)
      have e1 : pos + 1 + (cs.takeWhile cls).length
          = pos + ((c :: cs).takeWhile cls).length := by
        rw [List.takeWhile_cons_of_pos hc, List.length_cons]; omega
      have e2 : cs.dropWhile cls = (c :: cs).dropWhile cls := by
        rw [List.dropWhile_cons_of_pos hc]
      rw [e1, e2] at ih
      simp only [starRun, hc, if_true, ih]
      cases hk : k (pos + ((c :: cs).takeWhile cls).length) ((c :: cs).dropWhile cls) with
      | some r => rfl
      | none => simp only [h pos c cs hc hk]
    · simp [starRun, hc, List.takeWhile_cons_of_neg hc, List.dropWhile_cons_of_neg hc]

/-! ## The tails of PARSE_REGEX -/

theorem dropWhile_space_of_not {c : Char} {cs : List Char} (h : pcreSpace vt c = false) :
    (c :: cs).dropWhile (pcreSpace vt) = c :: cs := by
  rw [List.dropWhile_cons_of_neg (by simp [h])]

theorem dropWhile_space_ne_newline (s : List Char) : s.dropWhile (pcreSpace vt) ≠ ['\n'] := by
  intro h
  have := List.head?_dropWhile_not (pcreSpace vt) s
  rw [h] at this
  simp [pcreSpace_newline] at this

theorem tail5_nil (caps : Caps) : tail5 vt caps [] = some caps := by simp [tail5]

theorem tail5_cons_of_not {c : Char} (cs : List Char) (caps : Caps)
    (h : pcreSpace vt c = false) : tail5 vt caps (c :: cs) = none := by
  simp [tail5, dropWhile_space_of_not h]

theorem tail4_nil (caps : Caps) : tail4 vt caps [] = some caps := by simp [tail4, tail5]

theorem tail4_cons_of_ne {c : Char} (cs : List Char) (caps : Caps) (h : c ≠ ',') :
    tail4 vt caps (c :: cs) = tail5 vt caps (c :: cs) := by
  simp [tail4, h]

theorem tail3_eq_none {caps : Caps} {s : List Char} (h : tail3 vt caps s = none)
    (caps' : Caps) : tail5 vt caps' s = none := by
  unfold tail3 at h
  unfold tail5
  split
  · next he => rw [he, tail4_nil] at h; exact absurd h (by simp)
  · rfl

theorem tail3_cons_of_word {c : Char} (cs : List Char) (caps : Caps)
    (h : classAz c = true) : tail3 vt caps (c :: cs) = none := by
  have hs : pcreSpace vt c = false := space_of_classAz h
  rw [tail3, dropWhile_space_of_not hs, tail4_cons_of_ne _ _ (ne_comma_of_classAz h),
    tail5_cons_of_not _ _ hs]

theorem tail2_cons_of_ne {c : Char} (cs : List Char) (caps : Caps) (h : c ≠ ',') :
    tail2 vt caps (c :: cs) = tail3 vt caps (c :: cs) := by
  simp [tail2, h]

theorem tail1_cons_of_word {c : Char} (cs : List Char) (caps : Caps)
    (h : classAz c = true) : tail1 vt caps (c :: cs) = none := by
  rw [tail1, dropWhile_space_of_not (space_of_classAz h),
    tail2_cons_of_ne _ _ (ne_comma_of_classAz h), tail3_cons_of_word _ _ h]

theorem commaWord_2_eq_none {caps : Caps} {s : List Char}
    (h : commaWord vt 2 (tail3 vt) caps s = none) : commaWord vt 3 (tail5 vt) caps s = none := by
  cases s with
  | nil => rfl
  | cons d r =>
    simp only [commaWord] at h ⊢
    split
    · split
      · rfl
      · next hd hw =>
        simp only [hd, hw, if_true, if_false] at h
        exact tail3_eq_none h _
    · rfl

theorem run_tail5 (pos : Nat) (s : List Char) (caps : Caps) :
    (reTail5 vt).run pos s caps accept = tail5 vt caps s := by
  simp only [reTail5, Pcre.run]
  rw [starRun_greedy]
  · simp [tail5, accept, dropWhile_space_ne_newline]
  · intro p c cs hc h
    have hne : (c :: cs).dropWhile (pcreSpace vt) ≠ [] := by
      intro he; rw [he] at h; simp [accept] at h
    have : c :: cs ≠ ['\n'] := by
      intro he; rw [he] at hne; exact hne (by simp [pcreSpace_newline])
    simp [this]

theorem run_seq (r₁ r₂ : Pcre) (pos : Nat) (s : List Char) (caps : Caps)
    (k : Nat → List Char → Caps → Option Caps) :
    (Pcre.seq r₁ r₂).run pos s caps k
      = r₁.run pos s caps (fun p s' caps' => r₂.run p s' caps' k) := by
  rw [Pcre.run]

theorem run_opt (r : Pcre) (pos : Nat) (s : List Char) (caps : Caps)
    (k : Nat → List Char → Caps → Option Caps) :
    (Pcre.opt r).run pos s caps k
      = match r.run pos s caps k with
        | some x => some x
        | none => k pos s caps := by
  rw [Pcre.run]

theorem run_star (cls : Char → Bool) (pos : Nat) (s : List Char) (caps : Caps)
    (k : Nat → List Char → Caps → Option Caps) :
    (Pcre.star cls).run pos s caps k = starRun cls pos s (fun p s' => k p s' caps) := by
  rw [Pcre.run]

theorem run_chr (c : Char) (pos : Nat) (s : List Char) (caps : Caps)
    (k : Nat → List Char → Caps → Option Caps) :
    (Pcre.chr c).run pos s caps k
      = match s with
        | d :: s' => if d = c then k (pos + 1) s' caps else none
        | [] => none := by
  simp only [Pcre.run]

theorem run_cap_plus (n pos : Nat) (s : List Char) (caps : Caps)
    (k : Nat → List Char → Caps → Option Caps) (kd : Caps → List Char → Option Caps)
    (hk : ∀ p s' c, k p s' c = kd c s')
    (hrej : ∀ c cs caps', classAz c = true → kd caps' (c :: cs) = none) :
    (Pcre.cap n (.plus classAz)).run pos s caps k =
      if s.takeWhile classAz = [] then none
      else kd ((n, s.takeWhile classAz) :: caps) (s.dropWhile classAz) := by
  simp only [Pcre.run]
  cases s with
  | nil => simp
  | cons d t =>
    by_cases hd : classAz d = true
    · simp only [hd, if_true]
      rw [starRun_greedy]
      · have e : pos + 1 + (t.takeWhile classAz).length - pos
            = (t.takeWhile classAz).length + 1 := by omega
        simp only [hk, e, List.take_succ_cons, take_length_takeWhile,
          List.takeWhile_cons_of_pos hd, List.dropWhile_cons_of_pos hd]
        simp
      · intro p c cs hc _
        simp only [hk]
        exact hrej _ _ _ hc
    · simp [hd, List.takeWhile_cons_of_neg hd]

theorem run_commaArg (n pos : Nat) (s : List Char) (caps : Caps)
    (k : Nat → List Char → Caps → Option Caps) (kd : Caps → List Char → Option Caps)
    (hk : ∀ p s' c, k p s' c = kd c s')
    (hrej : ∀ c cs caps', classAz c = true → kd caps' (c :: cs) = none) :
    (commaArg vt n).run pos s caps k = commaWord vt n kd caps s := by
  rw [commaArg, run_seq, run_chr]
  cases s with
  | nil => rfl
  | cons d r =>
    by_cases hd : d = ','
    · simp only [hd, if_true, commaWord, run_seq, run_star]
      have e : (fun p s' => Pcre.run (.cap n (.plus classAz)) p s' caps
            fun p s' caps' => k p s' caps')
          = fun (_ : Nat) s' => if s'.takeWhile classAz = [] then none
              else kd ((n, s'.takeWhile classAz) :: caps) (s'.dropWhile classAz) := by
        funext p s'
        exact run_cap_plus n p s' caps k kd hk hrej
      rw [e, starRun_greedy]
      intro p c cs hc _
      simp [List.takeWhile_cons_of_neg (show ¬ classAz c = true by
        simp [classAz_of_space hc])]
    · simp [hd, commaWord]

theorem run_tail4 (pos : Nat) (s : List Char) (caps : Caps) :
    (reTail4 vt).run pos s caps accept = tail4 vt caps s := by
  rw [reTail4, run_seq, run_opt]
  rw [run_commaArg 3 pos s caps _ (tail5 vt) (fun p s' c => run_tail5 p s' c)
    (fun c cs caps' hc => tail5_cons_of_not cs caps' (space_of_classAz hc)), run_tail5]
  cases s with
  | nil => simp [commaWord, tail4]
  | cons d r =>
    by_cases hd : d = ','
    · subst hd
      rw [tail5_cons_of_not _ _ pcreSpace_comma]
      simp only [tail4, List.head?_cons, if_true]
      cases commaWord vt 3 (tail5 vt) caps (',' :: r) <;> rfl
    · simp [commaWord, hd, tail4]

theorem run_tail3 (pos : Nat) (s : List Char) (caps : Caps) :
    (reTail3 vt).run pos s caps accept = tail3 vt caps s := by
  rw [reTail3, run_seq, run_star]
  simp only [run_tail4]
  rw [starRun_greedy]
  · rfl
  · intro p c cs hc h
    rw [tail4_cons_of_ne _ _ (ne_comma_of_space hc)]
    exact tail3_eq_none h _

theorem run_tail2 (pos : Nat) (s : List Char) (caps : Caps) :
    (reTail2 vt).run pos s caps accept = tail2 vt caps s := by
  rw [reTail2, run_seq, run_opt]
  rw [run_commaArg 2 pos s caps _ (tail3 vt) (fun p s' c => run_tail3 p s' c)
    (fun c cs caps' hc => tail3_cons_of_word cs caps' hc), run_tail3]
  cases s with
  | nil => simp [commaWord, tail2]
  | cons d r =>
    by_cases hd : d = ','
    · subst hd
      simp only [tail2, List.head?_cons, if_true]
      cases h : commaWord vt 2 (tail3 vt) caps (',' :: r) with
      | some x => rfl
      | none =>
        have h3 := commaWord_2_eq_none h
        simp only [tail3, dropWhile_space_of_not pcreSpace_comma]
        simp [tail4, h3]
    · simp [commaWord, hd, tail2]

theorem dropWhile_space_idem (s : List Char) :
    (s.dropWhile (pcreSpace vt)).dropWhile (pcreSpace vt) = s.dropWhile (pcreSpace vt) :=
  List.dropWhile_idempotent _ _

theorem run_tail1 (pos : Nat) (s : List Char) (caps : Caps) :
    (reTail1 vt).run pos s caps accept = tail1 vt caps s := by
  rw [reTail1, run_seq, run_star]
  simp only [run_tail2]
  rw [starRun_greedy]
  · rfl
  · intro p c cs hc h
    rw [tail2_cons_of_ne _ _ (ne_comma_of_space hc), tail3]
    have hi := @dropWhile_space_idem vt (c :: cs)
    generalize (c :: cs).dropWhile (pcreSpace vt) = y at h hi
    unfold tail2 at h
    split at h
    · next hy => simp only [tail4, hy, if_true]; exact commaWord_2_eq_none h
    · rw [tail3, hi] at h; exact h

theorem PARSE_REGEX_eq : (PARSE_REGEX vt)
    = .seq .bol (.seq (.star (pcreSpace vt)) (.seq (.cap 1 (.plus classAz)) (reTail1 vt))) := rfl

theorem run_PARSE_REGEX (pos : Nat) (s : List Char) :
    (PARSE_REGEX vt).run pos s [] accept = if pos = 0 then lexCaps vt s else none := by
  rw [PARSE_REGEX_eq, run_seq, Pcre.run]
  split
  · rw [run_seq, run_star]
    have e : (fun p s' => Pcre.run (.seq (.cap 1 (.plus classAz)) (reTail1 vt)) p s' [] accept)
        = fun (_ : Nat) s' => if s'.takeWhile classAz = [] then none
            else tail1 vt [(1, s'.takeWhile classAz)] (s'.dropWhile classAz) := by
      funext p s'
      rw [run_seq]
      exact run_cap_plus 1 p s' [] _ (tail1 vt) (fun p s' c => run_tail1 p s' c)
        (fun c cs caps' hc => tail1_cons_of_word cs caps' hc)
    rw [e, starRun_greedy]
    · rfl
    · intro p c cs hc _
      simp [List.takeWhile_cons_of_neg (show ¬ classAz c = true by
        simp [classAz_of_space hc])]
  · rfl

theorem execFrom_of_pos : ∀ (s : List Char) (pos : Nat), pos ≠ 0 →
    execFrom (PARSE_REGEX vt) pos s = none
  | [], pos, h => by
    have := @run_PARSE_REGEX vt pos []
    simp only [h, if_false] at this
    simp [execFrom, this]
  | c :: cs, pos, h => by
    have := @run_PARSE_REGEX vt pos (c :: cs)
    simp only [h, if_false] at this
    simp [execFrom, this, execFrom_of_pos cs (pos + 1) (by omega)]

theorem execFrom_PARSE_REGEX (s : List Char) : execFrom (PARSE_REGEX vt) 0 s = lexCaps vt s := by
  have := @run_PARSE_REGEX vt 0 s
  simp only [if_true] at this
  cases s with
  | nil => simp [execFrom, this]
  | cons c cs =>
    simp only [execFrom, this, execFrom_of_pos cs 1 (by omega)]
    cases lexCaps vt (c :: cs) <;> rfl

/-! ## From the capture table to the word list -/

theorem tail4_eq (caps : Caps) (r : List Char) (hr : r.dropWhile (pcreSpace vt) = r) :
    tail4 vt caps r =
      match r with
      | [] => some caps
      | d :: t =>
        if d = ',' then
          match lexWord vt t with
          | none => none
          | some (w, r') => if r' = [] then some ((3, w) :: caps) else none
        else none := by
  cases r with
  | nil => exact tail4_nil caps
  | cons d t =>
    by_cases hd : d = ','
    · subst hd
      simp only [tail4, List.head?_cons, if_true, commaWord, lexWord]
      split
      · rfl
      · simp [tail5]
    · rw [tail4_cons_of_ne _ _ hd]
      simp [tail5, hr, hd]

theorem tail2_eq (caps : Caps) (r : List Char) (hr : r.dropWhile (pcreSpace vt) = r) :
    tail2 vt caps r =
      match r with
      | [] => some caps
      | d :: t =>
        if d = ',' then
          match lexWord vt t with
          | none => none
          | some (w, r') => tail4 vt ((2, w) :: caps) r'
        else none := by
  cases r with
  | nil => simp [tail2, tail3, tail4_nil]
  | cons d t =>
    by_cases hd : d = ','
    · subst hd
      simp only [tail2, List.head?_cons, if_true, commaWord, lexWord]
      split
      · rfl
      · simp [tail3]
    · rw [tail2_cons_of_ne _ _ hd, tail3, hr, tail4_cons_of_ne _ _ hd]
      simp [tail5, hr, hd]

theorem lexWord_rest {s w r : List Char} (h : lexWord vt s = some (w, r)) :
    r.dropWhile (pcreSpace vt) = r := by
  unfold lexWord at h
  split at h
  · exact absurd h (by simp)
  · simp only [Option.some.injEq, Prod.mk.injEq] at h
    rw [← h.2]; exact dropWhile_space_idem _

theorem lexCaps_eq (s : List Char) : lexCaps vt s = (lexList vt 3 s).map capsOf := by
  unfold lexCaps
  simp only [lexList]
  cases h1 : lexWord vt s with
  | none =>
    unfold lexWord at h1
    split at h1
    · next h => simp [h]
    · exact absurd h1 (by simp)
  | some wr =>
    obtain ⟨w1, r1⟩ := wr
    have hr1 := lexWord_rest h1
    unfold lexWord at h1
    split at h1
    · exact absurd h1 (by simp)
    · next hw =>
      simp only [Option.some.injEq, Prod.mk.injEq] at h1
      obtain ⟨e1, e2⟩ := h1
      rw [if_neg hw, tail1, e1, e2, tail2_eq _ _ hr1]
      cases r1 with
      | nil => simp [capsOf, List.enum, List.enumFrom]
      | cons d t1 =>
        by_cases hd : d = ','
        · simp only [hd, if_true]
          cases h2 : lexWord vt t1 with
          | none => simp
          | some wr2 =>
            obtain ⟨w2, r2⟩ := wr2
            have hr2 := lexWord_rest h2
            simp only []
            rw [tail4_eq _ _ hr2]
            cases r2 with
            | nil => simp [capsOf, List.enum, List.enumFrom]
            | cons d2 t2 =>
              by_cases hd2 : d2 = ','
              · simp only [hd2, if_true]
                cases h3 : lexWord vt t2 with
                | none => simp
                | some wr3 =>
                  obtain ⟨w3, r3⟩ := wr3
                  cases r3 with
                  | nil => simp [capsOf, List.enum, List.enumFrom]
                  | cons d3 t3 => simp [lexList]
              · simp [hd2]
        · simp [hd]

theorem lexList_length : ∀ (n : Nat) (s : List Char) (ws : List (List Char)),
    lexList vt n s = some ws → 1 ≤ ws.length ∧ ws.length ≤ n
  | 0, _, _, h => by simp [lexList] at h
  | n + 1, s, ws, h => by
    simp only [lexList] at h
    split at h
    · exact absurd h (by simp)
    · simp only [Option.some.injEq] at h; subst h; simp
    · split at h
      · cases h' : lexList vt n _ with
        | none => rw [h'] at h; exact absurd h (by simp)
        | some ws' =>
          rw [h'] at h
          simp only [Option.map_some', Option.some.injEq] at h
          subst h
          have := lexList_length n _ _ h'
          simp only [List.length_cons]; omega
      · exact absurd h (by simp)

/-- The parser is the option loop run on the words that the pattern captures. -/
theorem DetectFlowParse_eq_lex (K : FlowPkt) (flowstr : String) :
    DetectFlowParse vt K flowstr
      = (lexList vt 3 flowstr.data).bind (fun ws => parseWords K ws ⟨0, 0⟩) := by
  unfold DetectFlowParse pcre_exec
  rw [execFrom_PARSE_REGEX, lexCaps_eq]
  cases h : lexList vt 3 flowstr.data with
  | none => simp
  | some ws =>
    have hl := lexList_length 3 _ _ h
    match ws, hl with
    | [w1], _ =>
      simp [capsOf, List.enum, List.enumFrom, Caps.highest, DetectFlowParseArgs,
        pcre_get_substring, List.lookup, parseWords]
    | [w1, w2], _ =>
      simp [capsOf, List.enum, List.enumFrom, Caps.highest, DetectFlowParseArgs,
        pcre_get_substring, List.lookup, parseWords]
    | [w1, w2, w3], _ =>
      simp [capsOf, List.enum, List.enumFrom, Caps.highest, DetectFlowParseArgs,
        pcre_get_substring, List.lookup, parseWords]
    | [], hl => simp at hl
    | _ :: _ :: _ :: _ :: _, hl => simp at hl

/-! ## Splitting at the commas -/

theorem takeWhile_append_stop (p : Char → Bool) {x : Char} (hx : p x = false)
    (b : List Char) : ∀ a : List Char, (a ++ x :: b).takeWhile p = a.takeWhile p
  | [] => by simp [hx]
  | c :: a => by
    by_cases hc : p c = true
    · simp [List.takeWhile_cons_of_pos hc, takeWhile_append_stop p hx b a]
    · simp [List.takeWhile_cons_of_neg hc]

theorem dropWhile_append_stop (p : Char → Bool) {x : Char} (hx : p x = false)
    (b : List Char) : ∀ a : List Char, (a ++ x :: b).dropWhile p = a.dropWhile p ++ x :: b
  | [] => by simp [hx]
  | c :: a => by
    by_cases hc : p c = true
    · simp [List.dropWhile_cons_of_pos hc, dropWhile_append_stop p hx b a]
    · simp [List.dropWhile_cons_of_neg hc]

theorem lexWord_append_comma (c r : List Char) :
    lexWord vt (c ++ ',' :: r) = (lexWord vt c).map (fun wr => (wr.1, wr.2 ++ ',' :: r)) := by
  have hs : pcreSpace vt ',' = false := pcreSpace_comma
  have hw : classAz ',' = false := by decide
  unfold lexWord
  rw [dropWhile_append_stop (pcreSpace vt) hs, takeWhile_append_stop classAz hw,
    dropWhile_append_stop classAz hw, dropWhile_append_stop (pcreSpace vt) hs]
  split <;> rfl

theorem lexWord_rest_subset {c w r : List Char} (h : lexWord vt c = some (w, r)) : r ⊆ c := by
  unfold lexWord at h
  split at h
  · exact absurd h (by simp)
  · simp only [Option.some.injEq, Prod.mk.injEq] at h
    rw [← h.2]
    exact (List.dropWhile_subset _).trans
      ((List.dropWhile_subset _).trans (List.dropWhile_subset _))

theorem lexList_single (n : Nat) (c : List Char) (hc : ',' ∉ c) :
    lexList vt (n + 1) c = (trimWord vt c).map (fun w => [w]) := by
  simp only [lexList, trimWord]
  cases h : lexWord vt c with
  | none => rfl
  | some wr =>
    obtain ⟨w, r⟩ := wr
    cases r with
    | nil => rfl
    | cons d t =>
      have hd : d ≠ ',' := by
        rintro rfl
        exact hc (lexWord_rest_subset h (List.mem_cons_self _ _))
      simp [hd]

theorem lexList_joinComma : ∀ (chunks : List (List Char)) (n : Nat), chunks ≠ [] →
    (∀ c ∈ chunks, ',' ∉ c) →
    lexList vt n (joinComma chunks) = if chunks.length ≤ n then trimWords vt chunks else none
  | [], _, h, _ => absurd rfl h
  | c :: cs, 0, _, _ => by simp [lexList]
  | [c], n + 1, _, hc => by
    rw [joinComma, lexList_single n c (hc c (List.mem_singleton_self c))]
    simp only [List.length_singleton, Nat.le_add_left, if_true, trimWords]
    cases trimWord vt c <;> rfl
  | c :: c' :: cs, n + 1, _, hc => by
    have ih := lexList_joinComma (c' :: cs) n (by simp)
      (fun x hx => hc x (List.mem_cons_of_mem _ hx))
    have hcc : ',' ∉ c := hc c (List.mem_cons_self _ _)
    rw [joinComma]
    simp only [lexList, lexWord_append_comma]
    rw [trimWords, trimWord]
    cases h : lexWord vt c with
    | none => simp
    | some wr =>
      obtain ⟨w, r⟩ := wr
      cases r with
      | nil =>
        simp only [Option.map_some', List.nil_append, if_true, ih, List.length_cons]
        by_cases hl : cs.length + 1 ≤ n
        · have hl' : cs.length + 1 + 1 ≤ n + 1 := by omega
          simp only [hl, hl', if_true]
          cases trimWords vt (c' :: cs) <;> rfl
        · have hl' : ¬ cs.length + 1 + 1 ≤ n + 1 := by omega
          simp [hl, hl']
      | cons d t =>
        have hd : d ≠ ',' := by
          rintro rfl
          exact hcc (lexWord_rest_subset h (List.mem_cons_self _ _))
        simp [hd]

theorem splitComma_ne_nil : ∀ s : List Char, splitComma s ≠ []
  | [] => by simp [splitComma]
  | c :: cs => by
    simp only [splitComma]
    split <;> simp

theorem splitComma_eq_cons (s : List Char) :
    splitComma s = (splitComma s).headD [] :: (splitComma s).tail := by
  have := splitComma_ne_nil s
  cases h : splitComma s with
  | nil => exact absurd h this
  | cons a l => rfl

theorem mem_splitComma : ∀ (s c : List Char), c ∈ splitComma s → ',' ∉ c
  | [], c, h => by
    simp only [splitComma, List.mem_singleton] at h
    subst h; simp
  | d :: s, c, h => by
    have ih := mem_splitComma s
    simp only [splitComma] at h
    split at h
    · rcases List.mem_cons.1 h with rfl | h'
      · simp
      · exact ih c h'
    · next hd =>
      rcases List.mem_cons.1 h with rfl | h'
      · have h0 : ',' ∉ (splitComma s).headD [] := by
          rw [splitComma_eq_cons s] at ih
          exact ih _ (List.mem_cons_self _ _)
        intro hm
        rcases List.mem_cons.1 hm with e | e
        · exact hd e.symm
        · exact h0 e
      · exact ih c (List.mem_of_mem_tail h')

theorem joinComma_cons (c : List Char) (l : List (List Char)) (hl : l ≠ []) :
    joinComma (c :: l) = c ++ ',' :: joinComma l := by
  cases l with
  | nil => exact absurd rfl hl
  | cons a l => rfl

theorem joinComma_cons_cons (d : Char) (c : List Char) (l : List (List Char)) :
    joinComma ((d :: c) :: l) = d :: joinComma (c :: l) := by
  cases l <;> rfl

theorem joinComma_splitComma : ∀ s : List Char, joinComma (splitComma s) = s
  | [] => rfl
  | d :: s => by
    have ih := joinComma_splitComma s
    simp only [splitComma]
    split
    · next hd => rw [joinComma_cons _ _ (splitComma_ne_nil s), ih, hd]; rfl
    · rw [joinComma_cons_cons, ← splitComma_eq_cons, ih]

theorem splitComma_of_not_mem : ∀ c : List Char, ',' ∉ c → splitComma c = [c]
  | [], _ => rfl
  | d :: c, h => by
    have hd : d ≠ ',' := fun e => h (e ▸ List.mem_cons_self _ _)
    have ih := splitComma_of_not_mem c (fun hm => h (List.mem_cons_of_mem _ hm))
    simp [splitComma, hd, ih]

theorem splitComma_append_comma : ∀ (c r : List Char), ',' ∉ c →
    splitComma (c ++ ',' :: r) = c :: splitComma r
  | [], r, _ => by simp [splitComma]
  | d :: c, r, h => by
    have hd : d ≠ ',' := fun e => h (e ▸ List.mem_cons_self _ _)
    have ih := splitComma_append_comma c r (fun hm => h (List.mem_cons_of_mem _ hm))
    simp [splitComma, hd, ih]

theorem splitComma_joinComma : ∀ chunks : List (List Char), chunks ≠ [] →
    (∀ c ∈ chunks, ',' ∉ c) → splitComma (joinComma chunks) = chunks
  | [], h, _ => absurd rfl h
  | [c], _, hc => splitComma_of_not_mem c (hc c (List.mem_singleton_self c))
  | c :: c' :: cs, _, hc => by
    rw [joinComma, splitComma_append_comma _ _ (hc c (List.mem_cons_self _ _)),
      splitComma_joinComma (c' :: cs) (by simp) (fun x hx => hc x (List.mem_cons_of_mem _ hx))]

/-- The parser in the words of the grammar: split at the commas, at most three pieces,
trim every piece to a word, run the option loop on the words. -/
theorem DetectFlowParse_eq_split (K : FlowPkt) (flowstr : String) :
    DetectFlowParse vt K flowstr =
      if (splitComma flowstr.data).length ≤ 3 then
        (trimWords vt (splitComma flowstr.data)).bind (fun ws => parseWords K ws ⟨0, 0⟩)
      else none := by
  rw [DetectFlowParse_eq_lex]
  conv_lhs => rw [← joinComma_splitComma flowstr.data]
  rw [lexList_joinComma _ 3 (splitComma_ne_nil _) (mem_splitComma _)]
  split <;> rfl

/-! ## Bit masks -/

theorem or_eq_zero_iff (a b : Nat) : a ||| b = 0 ↔ a = 0 ∧ b = 0 := by
  constructor
  · intro h
    have hb : ∀ i, (a.testBit i || b.testBit i) = false := fun i => by
      rw [← Nat.testBit_or, h]; simp
    constructor <;> apply Nat.eq_of_testBit_eq <;> intro i <;> have := hb i <;>
      simp only [Bool.or_eq_false_iff] at this <;> simp [this]
  · rintro ⟨rfl, rfl⟩; rfl

theorem and_or_ne_zero (f a b : Nat) :
    f &&& (a ||| b) ≠ 0 ↔ f &&& a ≠ 0 ∨ f &&& b ≠ 0 := by
  rw [Nat.and_or_distrib_left, Ne, or_eq_zero_iff]
  tauto

theorem or_and_eq_zero (f a m : Nat) : (f ||| a) &&& m = 0 ↔ f &&& m = 0 ∧ a &&& m = 0 := by
  rw [Nat.and_distrib_right, or_eq_zero_iff]

/-! ## The option loop on option words -/

theorem name_data_injective : ∀ t u : FlowToken, t.name.data = u.name.data → t = u := by
  intro t u h
  cases t <;> cases u <;> first | rfl | exact absurd h (by decide)

/-- One round of the option loop on an option word: it fails when a mask of the word's group
is set already, and otherwise sets the word's mask and counts the word. -/
theorem DetectFlowParseArg_token (K : FlowPkt) (fd : DetectFlowData) (t : FlowToken) :
    DetectFlowParseArg K fd t.name.data =
      if fd.flags &&& K.groupMask t.group ≠ 0 then none
      else some ⟨fd.flags ||| t.flag K, fd.match_cnt + 1⟩ := by
  cases t <;>
    simp only [DetectFlowParseArg, FlowToken.name, FlowToken.group, FlowToken.flag,
      FlowPkt.groupMask, and_or_ne_zero] <;>
    simp +decide only [if_true, if_false, true_or, or_true] <;>
    by_cases h1 : fd.flags &&& K.FLOW_PKT_ESTABLISHED = 0 <;>
    by_cases h2 : fd.flags &&& K.FLOW_PKT_STATELESS = 0 <;>
    by_cases h3 : fd.flags &&& K.FLOW_PKT_TOCLIENT = 0 <;>
    by_cases h4 : fd.flags &&& K.FLOW_PKT_TOSERVER = 0 <;>
    by_cases h5 : fd.flags &&& K.FLOW_PKT_STREAMONLY = 0 <;>
    by_cases h6 : fd.flags &&& K.FLOW_PKT_NOSTREAM = 0 <;>
    simp [h1, h2, h3, h4, h5, h6]

theorem group_canon (t : FlowToken) : t.canon.group = t.group := by
  cases t <;> rfl

theorem flag_canon (K : FlowPkt) (t : FlowToken) : t.canon.flag K = t.flag K := by
  cases t <;> rfl

/-- Option words that are not synonyms have masks without a common bit. -/
theorem FlowPkt.Separate.and_eq_zero {K : FlowPkt} (hK : K.Separate) :
    ∀ t u : FlowToken, t.canon ≠ u.canon → t.flag K &&& u.flag K = 0 := by
  obtain ⟨-, hp⟩ := hK
  simp only [FlowPkt.masks, List.pairwise_cons, List.mem_cons, List.mem_singleton,
    forall_eq_or_imp, forall_eq, List.not_mem_nil, false_imp_iff, implies_true,
    List.Pairwise.nil, and_true] at hp
  obtain ⟨⟨a1, a2, a3, a4, a5⟩, ⟨b1, b2, b3, b4⟩, ⟨c1, c2, c3⟩, ⟨d1, d2⟩, e1⟩ := hp
  intro t u h
  cases t <;> cases u <;>
    first
      | exact absurd rfl h
      | assumption
      | (simp only [FlowToken.flag]; rw [Nat.and_comm]; assumption)

theorem FlowPkt.Separate.flag_ne_zero {K : FlowPkt} (hK : K.Separate) (t : FlowToken) :
    t.flag K ≠ 0 := by
  obtain ⟨hne, -⟩ := hK
  apply hne
  cases t <;> simp [FlowToken.flag, FlowPkt.masks]

theorem groupMask_eq (K : FlowPkt) (g : FlowGroup) :
    ∃ t u : FlowToken, t.group = g ∧ u.group = g ∧ K.groupMask g = t.flag K ||| u.flag K := by
  cases g
  · exact ⟨.established, .stateless, rfl, rfl, rfl⟩
  · exact ⟨.to_client, .to_server, rfl, rfl, rfl⟩
  · exact ⟨.stream_only, .no_stream, rfl, rfl, rfl⟩

/-- The mask of an option word has no bit in the masks of another group. -/
theorem FlowPkt.Separate.flag_and_groupMask {K : FlowPkt} (hK : K.Separate) (t : FlowToken)
    (g : FlowGroup) (h : t.group ≠ g) : t.flag K &&& K.groupMask g = 0 := by
  obtain ⟨u, v, hu, hv, e⟩ := groupMask_eq K g
  rw [e, Nat.and_or_distrib_left, or_eq_zero_iff]
  have hne : ∀ w : FlowToken, w.group = g → t.canon ≠ w.canon := fun w hw e =>
    h (by rw [← group_canon t, e, group_canon, hw])
  exact ⟨hK.and_eq_zero t u (hne u hu), hK.and_eq_zero t v (hne v hv)⟩

/-- The mask of an option word lies in the masks of its own group. -/
theorem FlowPkt.Separate.flag_and_own {K : FlowPkt} (hK : K.Separate) (t : FlowToken) :
    t.flag K &&& K.groupMask t.group ≠ 0 := by
  have h := hK.flag_ne_zero t
  cases t <;>
    simp only [FlowToken.flag, FlowToken.group, FlowPkt.groupMask, Nat.and_or_distrib_left,
      Nat.and_self, ne_eq, or_eq_zero_iff, not_and] at h ⊢ <;>
    first
      | exact fun h' => absurd h' h
      | exact fun _ h' => absurd h' h

theorem parseWords_nil (K : FlowPkt) (fd : DetectFlowData) : parseWords K [] fd = some fd := rfl

theorem parseWords_cons (K : FlowPkt) (w : List Char) (ws : List (List Char))
    (fd : DetectFlowData) :
    parseWords K (w :: ws) fd = (DetectFlowParseArg K fd w).bind (parseWords K ws) := by
  simp only [parseWords, List.map_cons, DetectFlowParseLoop]
  cases DetectFlowParseArg K fd w <;> rfl

/-- Option words of different groups, none of which is taken yet, are all accepted. -/
theorem parseWords_tokens {K : FlowPkt} (hK : K.Separate) :
    ∀ (toks : List FlowToken) (fd : DetectFlowData), (toks.map FlowToken.group).Nodup →
      (∀ t ∈ toks, fd.flags &&& K.groupMask t.group = 0) →
      parseWords K (toks.map (fun t => t.name.data)) fd
        = some ⟨toks.foldl (fun f t => f ||| t.flag K) fd.flags, fd.match_cnt + toks.length⟩
  | [], fd, _, _ => rfl
  | t :: toks, fd, hn, hf => by
    rw [List.map_cons, List.nodup_cons] at hn
    rw [List.map_cons, parseWords_cons, DetectFlowParseArg_token,
      if_neg (by simp [hf t (List.mem_cons_self _ _)])]
    simp only [Option.some_bind]
    rw [parseWords_tokens hK toks _ hn.2]
    · simp only [List.foldl_cons, List.length_cons]
      congr 2; omega
    · intro u hu
      have hg : t.group ≠ u.group := fun e => hn.1 (e ▸ List.mem_map_of_mem _ hu)
      simp only [or_and_eq_zero]
      exact ⟨hf u (List.mem_cons_of_mem _ hu), hK.flag_and_groupMask t _ hg⟩

/-- Once a mask of a group is set, a later option word of that group stops the loop. -/
theorem parseWords_taken (K : FlowPkt) (u : FlowToken) :
    ∀ (toks : List FlowToken) (fd : DetectFlowData), u ∈ toks →
      fd.flags &&& K.groupMask u.group ≠ 0 →
      parseWords K (toks.map (fun t => t.name.data)) fd = none
  | [], _, h, _ => absurd h (List.not_mem_nil _)
  | t :: toks, fd, h, hf => by
    rw [List.map_cons, parseWords_cons, DetectFlowParseArg_token]
    split
    · rfl
    · next ht =>
      simp only [Option.some_bind]
      rcases List.mem_cons.1 h with rfl | h'
      · exact absurd hf ht
      · apply parseWords_taken K u toks _ h'
        simp only [ne_eq, or_and_eq_zero, not_and]
        exact fun e => absurd e hf

/-- Two option words of one group in the list stop the loop. -/
theorem parseWords_conflict {K : FlowPkt} (hK : K.Separate) :
    ∀ (toks : List FlowToken) (fd : DetectFlowData), ¬ (toks.map FlowToken.group).Nodup →
      parseWords K (toks.map (fun t => t.name.data)) fd = none
  | [], _, h => absurd List.nodup_nil h
  | t :: toks, fd, h => by
    rw [List.map_cons, parseWords_cons, DetectFlowParseArg_token]
    split
    · rfl
    · simp only [Option.some_bind]
      rw [List.map_cons, List.nodup_cons, not_and_or, not_not] at h
      rcases h with h | h
      · obtain ⟨u, hu, hg⟩ := List.mem_map.1 h
        apply parseWords_taken K u toks _ hu
        simp only [ne_eq, or_and_eq_zero, not_and, hg]
        exact fun _ => hK.flag_and_own t
      · exact parseWords_conflict hK toks _ h

/-! ## Strings joined by commas -/

theorem joinComma_eq_bind (c : List Char) :
    ∀ l : List (List Char), joinComma (c :: l) = c ++ l.flatMap (fun x => ',' :: x)
  | [] => by simp [joinComma]
  | a :: l => by
    rw [joinComma, joinComma_eq_bind a l]; simp

theorem intercalate_go_data (s : String) :
    ∀ (l : List String) (acc : String),
      (String.intercalate.go acc s l).data = acc.data ++ l.flatMap (fun a => s.data ++ a.data)
  | [], acc => by simp [String.intercalate.go]
  | a :: l, acc => by
    simp [String.intercalate.go, intercalate_go_data s l, List.append_assoc]

/-- The characters of strings joined with `","`. -/
theorem intercalate_comma_data (l : List String) :
    (",".intercalate l).data = joinComma (l.map String.data) := by
  cases l with
  | nil => rfl
  | cons a l =>
    rw [String.intercalate, intercalate_go_data, List.map_cons, joinComma_eq_bind,
      List.flatMap_map]
    rfl

/-! ## Option words joined by commas -/

theorem name_not_comma (t : FlowToken) : ',' ∉ t.name.data := by
  cases t <;> decide

theorem trimWord_name (t : FlowToken) : trimWord vt t.name.data = some t.name.data := by
  cases vt <;> cases t <;> rfl

theorem trimWords_names : ∀ toks : List FlowToken,
    trimWords vt (toks.map (fun t => t.name.data)) = some (toks.map (fun t => t.name.data))
  | [] => rfl
  | t :: toks => by
    rw [List.map_cons, trimWords, trimWord_name, trimWords_names toks]

/-- The parser on option words joined by commas is the option loop on these words, as long
as there are at most three of them. -/
theorem DetectFlowParse_tokens (K : FlowPkt) (toks : List FlowToken) (h : toks ≠ []) :
    DetectFlowParse vt K (",".intercalate (toks.map FlowToken.name)) =
      if toks.length ≤ 3 then parseWords K (toks.map (fun t => t.name.data)) ⟨0, 0⟩
      else none := by
  have hm : (toks.map FlowToken.name).map String.data = toks.map (fun t => t.name.data) := by
    rw [List.map_map]; rfl
  rw [DetectFlowParse_eq_split, intercalate_comma_data, hm, splitComma_joinComma,
    trimWords_names, List.length_map]
  · rfl
  · simpa using h
  · intro c hc
    obtain ⟨t, -, rfl⟩ := List.mem_map.1 hc
    exact name_not_comma t

/-- Option words of pairwise different groups, at most three, are accepted. -/
theorem DetectFlowParse_ok {K : FlowPkt} (hK : K.Separate) (toks : List FlowToken)
    (h1 : toks ≠ []) (h3 : toks.length ≤ 3) (hg : (toks.map FlowToken.group).Nodup) :
    DetectFlowParse vt K (",".intercalate (toks.map FlowToken.name))
      = some ⟨flagsOf K toks, toks.length⟩ := by
  rw [DetectFlowParse_tokens K toks h1, if_pos h3,
    parseWords_tokens hK toks ⟨0, 0⟩ hg (fun t _ => Nat.zero_and _)]
  simp [flagsOf]

theorem DetectFlowParse_empty (K : FlowPkt) : DetectFlowParse vt K "" = none := by
  rw [DetectFlowParse_eq_lex]
  rfl

/-! ## Unknown words -/

theorem DetectFlowParseArg_unknown (K : FlowPkt) (fd : DetectFlowData) (w : List Char)
    (h : ∀ t : FlowToken, w ≠ t.name.data) : DetectFlowParseArg K fd w = none := by
  have h1 := h .established
  have h2 := h .stateless
  have h3 := h .to_client
  have h4 := h .from_server
  have h5 := h .to_server
  have h6 := h .from_client
  have h7 := h .stream_only
  have h8 := h .no_stream
  simp only [FlowToken.name] at h1 h2 h3 h4 h5 h6 h7 h8
  simp only [DetectFlowParseArg, h1, h2, h3, h4, h5, h6, h7, h8, if_false, or_self]

theorem DetectFlowParseArg_some {K : FlowPkt} {fd fd' : DetectFlowData} {w : List Char}
    (h : DetectFlowParseArg K fd w = some fd') : ∃ t : FlowToken, w = t.name.data := by
  by_contra hn
  rw [DetectFlowParseArg_unknown K fd w (fun t e => hn ⟨t, e⟩)] at h
  exact absurd h (by simp)

/-- A word that is none of the eight option words stops the loop. -/
theorem parseWords_unknown (K : FlowPkt) (w : List Char)
    (hw : ∀ t : FlowToken, w ≠ t.name.data) :
    ∀ (ws : List (List Char)) (fd : DetectFlowData), w ∈ ws → parseWords K ws fd = none
  | [], _, h => absurd h (List.not_mem_nil _)
  | v :: ws, fd, h => by
    rw [parseWords_cons]
    cases hv : DetectFlowParseArg K fd v with
    | none => rfl
    | some fd' =>
      rcases List.mem_cons.1 h with rfl | h'
      · rw [DetectFlowParseArg_unknown K fd w hw] at hv
        exact absurd hv (by simp)
      · exact parseWords_unknown K w hw ws fd' h'

theorem trimWords_mem : ∀ (chunks ws : List (List Char)), trimWords vt chunks = some ws →
    ∀ c ∈ chunks, ∃ w ∈ ws, trimWord vt c = some w
  | [], _, _, c, hc => absurd hc (List.not_mem_nil _)
  | d :: chunks, ws, h, c, hc => by
    rw [trimWords] at h
    cases hd : trimWord vt d with
    | none => rw [hd] at h; exact absurd h (by simp)
    | some w =>
      cases hr : trimWords vt chunks with
      | none => rw [hd, hr] at h; exact absurd h (by simp)
      | some ws' =>
        rw [hd, hr] at h
        simp only [Option.some.injEq] at h
        subst h
        rcases List.mem_cons.1 hc with rfl | hc'
        · exact ⟨w, List.mem_cons_self _ _, hd⟩
        · obtain ⟨v, hv, e⟩ := trimWords_mem chunks ws' hr c hc'
          exact ⟨v, List.mem_cons_of_mem _ hv, e⟩

/-- A piece that does not trim to an option word makes the parser fail, wherever it stands
among the pieces of the input. -/
theorem DetectFlowParse_bad_piece (K : FlowPkt) (flowstr : String) (c : List Char)
    (hc : c ∈ splitComma flowstr.data) (hbad : ∀ t : FlowToken, trimWord vt c ≠ some t.name.data) :
    DetectFlowParse vt K flowstr = none := by
  rw [DetectFlowParse_eq_split]
  split
  · cases h : trimWords vt (splitComma flowstr.data) with
    | none => rfl
    | some ws =>
      obtain ⟨w, hw, e⟩ := trimWords_mem _ ws h c hc
      simp only [Option.some_bind]
      exact parseWords_unknown K w (fun t et => hbad t (et ▸ e)) ws _ hw
  · rfl

theorem trimWord_padded {c w : List Char} (h : trimWord vt c = some w) : IsPadded vt c w := by
  unfold trimWord at h
  split at h
  · next w' hl =>
    simp only [Option.some.injEq] at h
    subst h
    unfold lexWord at hl
    split at hl
    · exact absurd hl (by simp)
    · simp only [Option.some.injEq, Prod.mk.injEq] at hl
      obtain ⟨e1, e2⟩ := hl
      refine ⟨c.takeWhile (pcreSpace vt), (c.dropWhile (pcreSpace vt)).dropWhile classAz, ?_, ?_, ?_⟩
      · intro x hx; exact List.mem_takeWhile_imp hx
      · exact List.dropWhile_eq_nil_iff.1 e2
      · rw [← e1, List.append_assoc, List.takeWhile_append_dropWhile,
          List.takeWhile_append_dropWhile]
  · exact absurd h (by simp)

/-! ## Separators other than the comma -/

theorem name_all_word (t : FlowToken) : ∀ x ∈ t.name.data, classAz x = true := by
  cases t <;> decide

theorem name_length (t : FlowToken) : 9 ≤ t.name.data.length ∧ t.name.data.length ≤ 11 := by
  cases t <;> decide

theorem name_cons (t : FlowToken) :
    ∃ x xs, t.name.data = x :: xs ∧ classAz x = true := by
  cases t <;> exact ⟨_, _, rfl, by decide⟩

theorem dropWhile_space_name_append (t : FlowToken) (r : List Char) :
    (t.name.data ++ r).dropWhile (pcreSpace vt) = t.name.data ++ r := by
  obtain ⟨x, xs, e, hx⟩ := name_cons t
  rw [e, List.cons_append, dropWhile_space_of_not (space_of_classAz hx)]

/-- Two option words with one character between them, inside one piece, do not trim to an
option word, whatever follows. -/
theorem trimWord_sep (t u : FlowToken) (c : Char) (more : List Char)
    (v : FlowToken) :
    trimWord vt (t.name.data ++ c :: (u.name.data ++ more)) ≠ some v.name.data := by
  intro h
  unfold trimWord at h
  split at h
  · next w hl =>
    simp only [Option.some.injEq] at h
    subst h
    unfold lexWord at hl
    rw [dropWhile_space_name_append, List.takeWhile_append_of_pos (name_all_word t),
      List.dropWhile_append_of_pos (name_all_word t)] at hl
    split at hl
    · exact absurd hl (by simp)
    · simp only [Option.some.injEq, Prod.mk.injEq] at hl
      obtain ⟨e1, e2⟩ := hl
      by_cases hw : classAz c = true
      · rw [List.takeWhile_cons_of_pos hw,
          List.takeWhile_append_of_pos (name_all_word u)] at e1
        have := congrArg List.length e1
        simp only [List.length_append, List.length_cons] at this
        have h1 := name_length t
        have h2 := name_length u
        have h3 := name_length v
        omega
      · rw [List.dropWhile_cons_of_neg hw] at e2
        by_cases hs : pcreSpace vt c = true
        · rw [List.dropWhile_cons_of_pos hs, dropWhile_space_name_append] at e2
          obtain ⟨x, xs, e, -⟩ := name_cons u
          rw [e] at e2
          exact absurd e2 (by simp)
        · rw [List.dropWhile_cons_of_neg hs] at e2
          exact absurd e2 (by simp)
  · exact absurd h (by simp)

theorem splitComma_append_cons_ne (c : Char) (hc : c ≠ ',') (r : List Char) :
    ∀ n : List Char, ',' ∉ n →
      splitComma (n ++ c :: r)
        = (n ++ c :: (splitComma r).headD []) :: (splitComma r).tail
  | [], _ => by simp [splitComma, hc]
  | d :: n, h => by
    have hd : d ≠ ',' := fun e => h (e ▸ List.mem_cons_self _ _)
    have ih := splitComma_append_cons_ne c hc r n (fun hm => h (List.mem_cons_of_mem _ hm))
    simp [splitComma, hd, ih]

theorem sepJoin_cons (t u : FlowToken) (c : Char) (rest : List (Char × FlowToken)) :
    sepJoin t ((c, u) :: rest) = t.name.data ++ c :: sepJoin u rest := by
  simp [sepJoin]

theorem splitComma_sepJoin_head (t : FlowToken) (rest : List (Char × FlowToken)) :
    ∃ more, (splitComma (sepJoin t rest)).headD [] = t.name.data ++ more := by
  cases rest with
  | nil =>
    refine ⟨[], ?_⟩
    simp [sepJoin, splitComma_of_not_mem _ (name_not_comma t)]
  | cons cu rest =>
    obtain ⟨c, u⟩ := cu
    rw [sepJoin_cons]
    by_cases hc : c = ','
    · subst hc
      refine ⟨[], ?_⟩
      rw [splitComma_append_comma _ _ (name_not_comma t)]
      simp
    · rw [splitComma_append_cons_ne c hc _ _ (name_not_comma t)]
      exact ⟨_, rfl⟩

theorem splitComma_sepJoin_bad : ∀ (rest : List (Char × FlowToken)) (t : FlowToken),
    (∃ cu ∈ rest, cu.1 ≠ ',') →
    ∃ piece ∈ splitComma (sepJoin t rest), ∀ v : FlowToken, trimWord vt piece ≠ some v.name.data
  | [], _, h => by
    obtain ⟨cu, hcu, -⟩ := h
    exact absurd hcu (List.not_mem_nil _)
  | (c, u) :: rest, t, h => by
    rw [sepJoin_cons]
    by_cases hc : c = ','
    · subst hc
      have h' : ∃ cu ∈ rest, cu.1 ≠ ',' := by
        obtain ⟨cu, hcu, hne⟩ := h
        rcases List.mem_cons.1 hcu with rfl | hm
        · exact absurd rfl hne
        · exact ⟨cu, hm, hne⟩
      obtain ⟨piece, hp, hbad⟩ := splitComma_sepJoin_bad rest u h'
      rw [splitComma_append_comma _ _ (name_not_comma t)]
      exact ⟨piece, List.mem_cons_of_mem _ hp, hbad⟩
    · obtain ⟨more, hm⟩ := splitComma_sepJoin_head u rest
      rw [splitComma_append_cons_ne c hc _ _ (name_not_comma t), hm]
      exact ⟨_, List.mem_cons_self _ _, trimWord_sep t u c more⟩

/-! ## The matcher and the count of the specification -/

theorem DetectFlowMatch_eq_count {ThreadVars PatternMatcherThread Signature : Type}
    (K : FlowPkt) (t : ThreadVars) (pmt : PatternMatcherThread) (p : Packet) (s : Signature)
    (ty : Nat) (fd : DetectFlowData) :
    DetectFlowMatch K t pmt p s ⟨ty, fd⟩
      = if specCount K fd.flags p.flowflags = fd.match_cnt then 1 else 0 := by
  unfold DetectFlowMatch specCount hasFlag
  dsimp only
  split_ifs <;> first | rfl | omega

/-- The run with explicit memory returns what `DetectFlowMatch` returns. -/
theorem DetectFlowMatchMem_ret {ThreadVars PatternMatcherThread Signature : Type}
    (K : FlowPkt) (t : ThreadVars) (pmt : PatternMatcherThread) (p : Packet) (s : Signature)
    (m : SigMatch) :
    (DetectFlowMatchMem K t pmt p s m).1 = DetectFlowMatch K t pmt p s m := by
  unfold DetectFlowMatchMem DetectFlowMatch
  dsimp only
  split_ifs <;> rfl

/-- The run with explicit memory hands back the packet and the list entry as it got them. -/
theorem DetectFlowMatchMem_frame {ThreadVars PatternMatcherThread Signature : Type}
    (K : FlowPkt) (t : ThreadVars) (pmt : PatternMatcherThread) (p : Packet) (s : Signature)
    (m : SigMatch) :
    (DetectFlowMatchMem K t pmt p s m).2 = (p, m) := by
  unfold DetectFlowMatchMem
  dsimp only
  split_ifs <;> rfl

/-! ## The bits of a parsed condition -/

theorem flag_and_eq_zero_iff {K : FlowPkt} (hK : K.Separate) (t u : FlowToken) :
    t.flag K &&& u.flag K = 0 ↔ t.canon ≠ u.canon := by
  constructor
  · intro h e
    have : t.flag K = u.flag K := by rw [← flag_canon K t, e, flag_canon]
    rw [this, Nat.and_self] at h
    exact hK.flag_ne_zero u h
  · exact hK.and_eq_zero t u

theorem foldl_or_and_eq_zero (K : FlowPkt) (m : Nat) :
    ∀ (toks : List FlowToken) (f : Nat),
      toks.foldl (fun f t => f ||| t.flag K) f &&& m = 0
        ↔ f &&& m = 0 ∧ ∀ t ∈ toks, t.flag K &&& m = 0
  | [], f => by simp
  | t :: toks, f => by
    rw [List.foldl_cons, foldl_or_and_eq_zero K m toks, or_and_eq_zero]
    simp only [List.mem_cons, forall_eq_or_imp, and_assoc]

/-- A mask is set in the union of the masks of a list of option words exactly when the list
holds a word with that mask. -/
theorem hasFlag_flagsOf {K : FlowPkt} (hK : K.Separate) (toks : List FlowToken)
    (u : FlowToken) :
    hasFlag (flagsOf K toks) (u.flag K) ↔ ∃ t ∈ toks, t.canon = u.canon := by
  unfold hasFlag flagsOf
  rw [Ne, foldl_or_and_eq_zero]
  simp only [Nat.zero_and, true_and, flag_and_eq_zero_iff hK, not_forall, not_not,
    exists_prop]

/-- A mask of the packet that also is the mask of an option word. -/
theorem hasFlag_self {K : FlowPkt} (hK : K.Separate) (u : FlowToken) :
    hasFlag (u.flag K) (u.flag K) := by
  unfold hasFlag
  rw [Nat.and_self]
  exact hK.flag_ne_zero u

/-- Which masks are set in the union of the masks of a list of option words. -/
theorem hasFlag_flagsOf_masks {K : FlowPkt} (hK : K.Separate) (toks : List FlowToken) :
    (hasFlag (flagsOf K toks) K.FLOW_PKT_TOSERVER ↔ ∃ t ∈ toks, t.canon = .to_server) ∧
    (hasFlag (flagsOf K toks) K.FLOW_PKT_TOCLIENT ↔ ∃ t ∈ toks, t.canon = .to_client) ∧
    (hasFlag (flagsOf K toks) K.FLOW_PKT_ESTABLISHED ↔ ∃ t ∈ toks, t.canon = .established) ∧
    (hasFlag (flagsOf K toks) K.FLOW_PKT_STATELESS ↔ ∃ t ∈ toks, t.canon = .stateless) :=
  ⟨hasFlag_flagsOf hK toks .to_server, hasFlag_flagsOf hK toks .to_client,
   hasFlag_flagsOf hK toks .established, hasFlag_flagsOf hK toks .stateless⟩

/-! ## What a successful parse tells -/

theorem trimWords_length : ∀ (chunks ws : List (List Char)), trimWords vt chunks = some ws →
    ws.length = chunks.length
  | [], ws, h => by
    simp only [trimWords, Option.some.injEq] at h
    subst h; rfl
  | d :: chunks, ws, h => by
    rw [trimWords] at h
    cases hd : trimWord vt d with
    | none => rw [hd] at h; exact absurd h (by simp)
    | some w =>
      cases hr : trimWords vt chunks with
      | none => rw [hd, hr] at h; exact absurd h (by simp)
      | some ws' =>
        rw [hd, hr] at h
        simp only [Option.some.injEq] at h
        subst h
        simp [trimWords_length chunks ws' hr]

theorem parseWords_some_tokens (K : FlowPkt) :
    ∀ (ws : List (List Char)) (fd fd' : DetectFlowData), parseWords K ws fd = some fd' →
      ∃ toks : List FlowToken, ws = toks.map (fun t => t.name.data)
  | [], _, _, _ => ⟨[], rfl⟩
  | w :: ws, fd, fd', h => by
    rw [parseWords_cons] at h
    cases hw : DetectFlowParseArg K fd w with
    | none => rw [hw] at h; exact absurd h (by simp)
    | some fd1 =>
      rw [hw, Option.some_bind] at h
      obtain ⟨t, rfl⟩ := DetectFlowParseArg_some hw
      obtain ⟨toks, rfl⟩ := parseWords_some_tokens K ws fd1 fd' h
      exact ⟨t :: toks, rfl⟩

/-- A successful parse comes from one to three option words of pairwise different groups,
one in each piece of the input, and yields the union of their masks and their number. -/
theorem DetectFlowParse_inv {K : FlowPkt} (hK : K.Separate) {flowstr : String}
    {fd : DetectFlowData} (h : DetectFlowParse vt K flowstr = some fd) :
    ∃ toks : List FlowToken, toks ≠ [] ∧ toks.length ≤ 3 ∧
      (toks.map FlowToken.group).Nodup ∧
      trimWords vt (splitComma flowstr.data) = some (toks.map (fun t => t.name.data)) ∧
      fd = ⟨flagsOf K toks, toks.length⟩ := by
  rw [DetectFlowParse_eq_split] at h
  split at h
  · next hlen =>
    cases hw : trimWords vt (splitComma flowstr.data) with
    | none => rw [hw] at h; exact absurd h (by simp)
    | some ws =>
      rw [hw, Option.some_bind] at h
      obtain ⟨toks, rfl⟩ := parseWords_some_tokens K ws _ _ h
      have hl := trimWords_length _ _ hw
      rw [List.length_map] at hl
      have hne : toks ≠ [] := by
        rintro rfl
        exact splitComma_ne_nil flowstr.data (List.length_eq_zero.1 hl.symm)
      have hnd : (toks.map FlowToken.group).Nodup := by
        by_contra hnd
        rw [parseWords_conflict hK toks _ hnd] at h
        exact absurd h (by simp)
      refine ⟨toks, hne, hl ▸ hlen, hnd, rfl, ?_⟩
      rw [parseWords_tokens hK toks ⟨0, 0⟩ hnd (fun t _ => Nat.zero_and _)] at h
      simp only [Option.some.injEq] at h
      rw [← h]
      simp [flagsOf]
  · exact absurd h (by simp)

theorem takeWhile_word_of_space : ∀ post : List Char, (∀ x ∈ post, pcreSpace vt x = true) →
    post.takeWhile classAz = []
  | [], _ => rfl
  | x :: post, h => by
    rw [List.takeWhile_cons_of_neg]
    simp [classAz_of_space (h x (List.mem_cons_self _ _))]

/-- A non-empty word of the class `[A-z_]` with white space around it trims to the word. -/
theorem trimWord_of_padded {c w : List Char} (hw : w ≠ []) (hall : ∀ x ∈ w, classAz x = true)
    (h : IsPadded vt c w) : trimWord vt c = some w := by
  obtain ⟨pre, post, hpre, hpost, rfl⟩ := h
  obtain ⟨x, xs, rfl⟩ := List.exists_cons_of_ne_nil hw
  have hx : pcreSpace vt x = false := space_of_classAz (hall x (List.mem_cons_self _ _))
  have e1 : (pre ++ (x :: xs) ++ post).dropWhile (pcreSpace vt) = (x :: xs) ++ post := by
    rw [List.append_assoc, List.dropWhile_append_of_pos hpre, List.cons_append,
      dropWhile_space_of_not hx]
  have e2 : ((x :: xs) ++ post).takeWhile classAz = x :: xs := by
    rw [List.takeWhile_append_of_pos hall, takeWhile_word_of_space post hpost,
      List.append_nil]
  have e3 : (((x :: xs) ++ post).dropWhile classAz).dropWhile (pcreSpace vt) = [] := by
    rw [List.dropWhile_append_of_pos hall, List.dropWhile_eq_nil_iff]
    intro y hy
    exact hpost y (List.dropWhile_subset _ hy)
  simp only [trimWord, lexWord, e1, e2, e3]
  simp

theorem trimWord_of_padded_name {c : List Char} (t : FlowToken)
    (h : IsPadded vt c t.name.data) : trimWord vt c = some t.name.data := by
  apply trimWord_of_padded _ (name_all_word t) h
  obtain ⟨x, xs, e, -⟩ := name_cons t
  rw [e]; simp

/-- In a successful parse, a piece that is a padded option word contributes that word. -/
theorem DetectFlowParse_inv_mem {K : FlowPkt} (hK : K.Separate) {flowstr : String}
    {fd : DetectFlowData} (h : DetectFlowParse vt K flowstr = some fd) :
    ∃ toks : List FlowToken, toks.length ≤ 3 ∧ (toks.map FlowToken.group).Nodup ∧
      fd = ⟨flagsOf K toks, toks.length⟩ ∧
      ∀ (c : List Char) (u : FlowToken), c ∈ splitComma flowstr.data →
        IsPadded vt c u.name.data → u ∈ toks := by
  obtain ⟨toks, -, h3, hnd, htw, hfd⟩ := DetectFlowParse_inv hK h
  refine ⟨toks, h3, hnd, hfd, ?_⟩
  intro c u hc hp
  obtain ⟨w, hw, e⟩ := trimWords_mem _ _ htw c hc
  rw [trimWord_of_padded_name u hp, Option.some.injEq] at e
  subst e
  obtain ⟨t, ht, e⟩ := List.mem_map.1 hw
  exact name_data_injective t u e ▸ ht

/-! ## Counting groups -/

theorem ite_le_ite {A B : Prop} [Decidable A] [Decidable B] (h : A → B) :
    (if A then 1 else 0) ≤ (if B then 1 else 0 : Nat) := by
  by_cases a : A
  · simp [a, h a]
  · by_cases b : B <;> simp [a, b]

/-- A list of groups without repetition has as many entries as groups occur in it. -/
theorem groups_length : ∀ l : List FlowGroup, l.Nodup →
    l.length = (if FlowGroup.direction ∈ l then 1 else 0)
      + (if FlowGroup.state ∈ l then 1 else 0) + (if FlowGroup.stream ∈ l then 1 else 0)
  | [], _ => rfl
  | g :: l, h => by
    rw [List.nodup_cons] at h
    have ih := groups_length l h.2
    have hg := h.1
    rw [List.length_cons, ih]
    cases g <;> simp only [List.mem_cons, reduceCtorEq, false_or, true_or, if_true, hg,
      if_false] <;> omega

theorem group_of_canon {t u : FlowToken} (h : t.canon = u) : t.group = u.group := by
  rw [← group_canon t, h]

/-- The count of the specification cannot exceed the number of direction and state words
of the parsed list. -/
theorem specCount_le {K : FlowPkt} (hK : K.Separate) (toks : List FlowToken)
    (flowflags : Nat) :
    specCount K (flagsOf K toks) flowflags
      ≤ (if FlowGroup.direction ∈ toks.map FlowToken.group then 1 else 0)
        + (if FlowGroup.state ∈ toks.map FlowToken.group then 1 else 0) := by
  obtain ⟨a1, a2, a3, a4⟩ := hasFlag_flagsOf_masks hK toks
  unfold specCount
  apply Nat.add_le_add
  · apply ite_le_ite
    rintro (⟨h, -⟩ | ⟨h, -⟩)
    · obtain ⟨t, ht, e⟩ := a1.1 h
      exact List.mem_map.2 ⟨t, ht, group_of_canon e⟩
    · obtain ⟨t, ht, e⟩ := a2.1 h
      exact List.mem_map.2 ⟨t, ht, group_of_canon e⟩
  · apply ite_le_ite
    rintro (⟨h, -⟩ | h)
    · obtain ⟨t, ht, e⟩ := a3.1 h
      exact List.mem_map.2 ⟨t, ht, group_of_canon e⟩
    · obtain ⟨t, ht, e⟩ := a4.1 h
      exact List.mem_map.2 ⟨t, ht, group_of_canon e⟩

theorem intercalate_pieces_split (pieces : List String) (hne : pieces ≠ [])
    (hcomma : ∀ c ∈ pieces, ',' ∉ c.data) :
    splitComma (",".intercalate pieces).data = pieces.map String.data := by
  rw [intercalate_comma_data, splitComma_joinComma]
  · simpa using hne
  · intro d hd
    obtain ⟨s, hs, rfl⟩ := List.mem_map.1 hd
    exact hcomma s hs

/-! ## Packets that agree away from a mask -/

theorem and_eq_of_agree {a b m e : Nat}
    (hab : ∀ i, e.testBit i = false → a.testBit i = b.testBit i) (hme : m &&& e = 0) :
    a &&& m = b &&& m := by
  apply Nat.eq_of_testBit_eq
  intro i
  rw [Nat.testBit_and, Nat.testBit_and]
  cases hm : m.testBit i with
  | false => simp
  | true =>
    have he : e.testBit i = false := by
      have := congrArg (fun n => n.testBit i) hme
      simpa [hm] using this
    rw [hab i he]

theorem hasFlag_of_agree {a b m e : Nat}
    (hab : ∀ i, e.testBit i = false → a.testBit i = b.testBit i) (hme : m &&& e = 0) :
    hasFlag a m ↔ hasFlag b m := by
  unfold hasFlag
  rw [and_eq_of_agree hab hme]

/-! ## The order of the options -/

theorem splitComma_append_comma_any (r : List Char) :
    ∀ a : List Char, splitComma (a ++ ',' :: r) = splitComma a ++ splitComma r
  | [] => by simp [splitComma]
  | d :: a => by
    have ih := splitComma_append_comma_any r a
    by_cases hd : d = ','
    · simp [splitComma, hd, ih]
    · rw [List.cons_append]
      simp only [splitComma, hd, if_false, ih]
      rw [splitComma_eq_cons a]
      simp

theorem splitComma_joinComma_any : ∀ l : List (List Char), l ≠ [] →
    splitComma (joinComma l) = l.flatMap splitComma
  | [], h => absurd rfl h
  | [c], _ => by simp [joinComma]
  | c :: c' :: l, _ => by
    rw [joinComma, splitComma_append_comma_any, splitComma_joinComma_any (c' :: l) (by simp)]
    simp

theorem parsePieces_nil (K : FlowPkt) (fd : DetectFlowData) :
    parsePieces vt K [] fd = some fd := rfl

theorem parsePieces_cons (K : FlowPkt) (c : List Char) (chunks : List (List Char))
    (fd : DetectFlowData) :
    parsePieces vt K (c :: chunks) fd
      = (trimWord vt c).bind (fun w =>
          (DetectFlowParseArg K fd w).bind (parsePieces vt K chunks)) := by
  unfold parsePieces
  rw [trimWords]
  cases trimWord vt c with
  | none => rfl
  | some w =>
    cases htw : trimWords vt chunks with
    | none =>
      simp only [Option.none_bind, Option.some_bind]
      cases DetectFlowParseArg K fd w <;> rfl
    | some ws =>
      simp only [Option.some_bind, parseWords_cons]

/-- Two rounds of the option loop can be swapped. -/
theorem DetectFlowParseArg_comm {K : FlowPkt} (hK : K.Separate) (fd : DetectFlowData)
    (a b : List Char) :
    (DetectFlowParseArg K fd a).bind (fun fd₁ => DetectFlowParseArg K fd₁ b)
      = (DetectFlowParseArg K fd b).bind (fun fd₂ => DetectFlowParseArg K fd₂ a) := by
  by_cases ha : ∃ t : FlowToken, a = t.name.data
  · by_cases hb : ∃ u : FlowToken, b = u.name.data
    · obtain ⟨t, rfl⟩ := ha
      obtain ⟨u, rfl⟩ := hb
      simp only [DetectFlowParseArg_token]
      by_cases hg : t.group = u.group
      · have ht := hK.flag_and_own t
        have hu := hK.flag_and_own u
        rw [hg] at ht
        by_cases hf : fd.flags &&& K.groupMask u.group = 0
        · simp [hg, hf, or_and_eq_zero, ht, hu]
        · simp [hg, hf]
      · have htu := hK.flag_and_groupMask t u.group hg
        have hut := hK.flag_and_groupMask u t.group (Ne.symm hg)
        by_cases h1 : fd.flags &&& K.groupMask t.group = 0 <;>
          by_cases h2 : fd.flags &&& K.groupMask u.group = 0 <;>
          simp [h1, h2, or_and_eq_zero, htu, hut, Nat.or_assoc,
            Nat.or_comm (t.flag K) (u.flag K)]
    · have hb' : ∀ u : FlowToken, b ≠ u.name.data := fun u e => hb ⟨u, e⟩
      simp only [DetectFlowParseArg_unknown K _ b hb', Option.none_bind]
      cases DetectFlowParseArg K fd a <;> rfl
  · have ha' : ∀ t : FlowToken, a ≠ t.name.data := fun t e => ha ⟨t, e⟩
    simp only [DetectFlowParseArg_unknown K _ a ha', Option.none_bind]
    cases DetectFlowParseArg K fd b <;> rfl

/-- The result of the option loop does not depend on the order of the pieces. -/
theorem parsePieces_perm {K : FlowPkt} (hK : K.Separate) {l₁ l₂ : List (List Char)}
    (h : l₁.Perm l₂) : ∀ fd : DetectFlowData, parsePieces vt K l₁ fd = parsePieces vt K l₂ fd := by
  induction h with
  | nil => intro fd; rfl
  | cons c _ ih =>
    intro fd
    simp only [parsePieces_cons, ih]
  | swap a b l =>
    intro fd
    simp only [parsePieces_cons]
    cases trimWord vt a with
    | none =>
      simp only [Option.none_bind]
      cases trimWord vt b with
      | none => rfl
      | some wb =>
        simp only [Option.some_bind]
        cases DetectFlowParseArg K fd wb <;> rfl
    | some wa =>
      cases trimWord vt b with
      | none =>
        simp only [Option.none_bind, Option.some_bind]
        cases DetectFlowParseArg K fd wa <;> rfl
      | some wb =>
        simp only [Option.some_bind]
        have h1 := congrArg (fun o => Option.bind o (parsePieces vt K l))
          (DetectFlowParseArg_comm hK fd wb wa)
        simpa only [Option.bind_assoc] using h1
  | trans _ _ ih₁ ih₂ => intro fd; rw [ih₁, ih₂]

theorem DetectFlowParse_eq_pieces (K : FlowPkt) (flowstr : String) :
    DetectFlowParse vt K flowstr =
      if (splitComma flowstr.data).length ≤ 3 then
        parsePieces vt K (splitComma flowstr.data) ⟨0, 0⟩
      else none := by
  rw [DetectFlowParse_eq_split]; rfl

/-! ## Pieces that the option loop cannot tell apart -/

theorem parsePieces_congr (K : FlowPkt) {cs ds : List (List Char)}
    (h : List.Forall₂ (fun c d => ∀ fd, (trimWord vt c).bind (DetectFlowParseArg K fd)
      = (trimWord vt d).bind (DetectFlowParseArg K fd)) cs ds) :
    ∀ fd : DetectFlowData, parsePieces vt K cs fd = parsePieces vt K ds fd := by
  induction h with
  | nil => intro fd; rfl
  | @cons c d cs' ds' hcd _ ih =>
    intro fd
    have e := congrArg (fun o => Option.bind o (parsePieces vt K ds')) (hcd fd)
    simp only [Option.bind_assoc] at e
    rw [parsePieces_cons, parsePieces_cons, ← e]
    simp only [funext ih]

theorem not_comma_of_padded_name {c : List Char} (t : FlowToken)
    (h : IsPadded vt c t.name.data) : ',' ∉ c := by
  obtain ⟨pre, post, hpre, hpost, rfl⟩ := h
  simp only [List.mem_append, not_or]
  exact ⟨⟨fun hm => ne_comma_of_space (hpre _ hm) rfl, name_not_comma t⟩,
    fun hm => ne_comma_of_space (hpost _ hm) rfl⟩

theorem padded_synonym (K : FlowPkt) {a b : List Char} (t u : FlowToken)
    (hg : t.group = u.group) (hf : t.flag K = u.flag K)
    (ha : IsPadded vt a t.name.data) (hb : IsPadded vt b u.name.data) :
    List.Forall₂ (fun c d => ∀ fd, (trimWord vt c).bind (DetectFlowParseArg K fd)
      = (trimWord vt d).bind (DetectFlowParseArg K fd)) (splitComma a) (splitComma b) := by
  rw [splitComma_of_not_mem a (not_comma_of_padded_name t ha),
    splitComma_of_not_mem b (not_comma_of_padded_name u hb)]
  refine List.Forall₂.cons (fun fd => ?_) List.Forall₂.nil
  rw [trimWord_of_padded_name t ha, trimWord_of_padded_name u hb]
  simp only [Option.some_bind, DetectFlowParseArg_token, hg, hf]

theorem synonymStep_pieces (K : FlowPkt) {a b : String} (h : SynonymStep vt a b) :
    List.Forall₂ (fun c d => ∀ fd, (trimWord vt c).bind (DetectFlowParseArg K fd)
      = (trimWord vt d).bind (DetectFlowParseArg K fd)) (splitComma a.data) (splitComma b.data) := by
  rcases h with rfl | ⟨pre, post, hpre, hpost, ⟨ha, hb⟩ | ⟨ha, hb⟩⟩
  · exact List.forall₂_same.2 (fun _ _ _ => rfl)
  · exact padded_synonym K .from_server .to_client rfl rfl
      ⟨pre, post, hpre, hpost, ha⟩ ⟨pre, post, hpre, hpost, hb⟩
  · exact padded_synonym K .from_client .to_server rfl rfl
      ⟨pre, post, hpre, hpost, ha⟩ ⟨pre, post, hpre, hpost, hb⟩

theorem synonymStep_flatMap (K : FlowPkt) {l₁ l₂ : List String}
    (h : List.Forall₂ (SynonymStep vt) l₁ l₂) :
    List.Forall₂ (fun c d => ∀ fd, (trimWord vt c).bind (DetectFlowParseArg K fd)
      = (trimWord vt d).bind (DetectFlowParseArg K fd))
      ((l₁.map String.data).flatMap splitComma) ((l₂.map String.data).flatMap splitComma) := by
  induction h with
  | nil => exact List.Forall₂.nil
  | cons hab _ ih =>
    simp only [List.map_cons, List.flatMap_cons]
    exact List.rel_append (synonymStep_pieces K hab) ih

/-! ## White space around a piece -/

theorem trimWord_eq (c : List Char) :
    trimWord vt c =
      if (c.dropWhile (pcreSpace vt)).takeWhile classAz = [] then none
      else if ((c.dropWhile (pcreSpace vt)).dropWhile classAz).dropWhile (pcreSpace vt) = [] then
        some ((c.dropWhile (pcreSpace vt)).takeWhile classAz)
      else none := by
  unfold trimWord lexWord
  by_cases hw : (c.dropWhile (pcreSpace vt)).takeWhile classAz = []
  · simp only [hw, if_true]
  · simp only [hw, if_false]
    cases ((c.dropWhile (pcreSpace vt)).dropWhile classAz).dropWhile (pcreSpace vt) with
    | nil => simp only [if_true]
    | cons x xs => simp only [reduceCtorEq, if_false]

theorem trimWord_pre (pre c : List Char) (hpre : ∀ x ∈ pre, pcreSpace vt x = true) :
    trimWord vt (pre ++ c) = trimWord vt c := by
  rw [trimWord_eq, trimWord_eq, List.dropWhile_append_of_pos hpre]

theorem dropWhile_word_of_space : ∀ post : List Char, (∀ x ∈ post, pcreSpace vt x = true) →
    post.dropWhile classAz = post
  | [], _ => rfl
  | x :: post, h => by
    rw [List.dropWhile_cons_of_neg]
    simp [classAz_of_space (h x (List.mem_cons_self _ _))]

theorem takeWhile_append_space (X post : List Char) (hpost : ∀ x ∈ post, pcreSpace vt x = true) :
    (X ++ post).takeWhile classAz = X.takeWhile classAz := by
  rw [List.takeWhile_append, takeWhile_word_of_space post hpost, List.append_nil]
  split
  · next h => exact ((List.takeWhile_prefix classAz).eq_of_length h).symm
  · rfl

theorem dropWhile_append_space (X post : List Char) (hpost : ∀ x ∈ post, pcreSpace vt x = true) :
    (X ++ post).dropWhile classAz = X.dropWhile classAz ++ post := by
  rw [List.dropWhile_append, dropWhile_word_of_space post hpost]
  split
  · next h => rw [List.isEmpty_iff.1 h, List.nil_append]
  · rfl

theorem dropWhile_space_append_eq_nil (Y post : List Char)
    (hpost : ∀ x ∈ post, pcreSpace vt x = true) :
    (Y ++ post).dropWhile (pcreSpace vt) = [] ↔ Y.dropWhile (pcreSpace vt) = [] := by
  rw [List.dropWhile_eq_nil_iff, List.dropWhile_eq_nil_iff]
  constructor
  · intro h x hx; exact h x (List.mem_append_left _ hx)
  · intro h x hx
    rcases List.mem_append.1 hx with hx | hx
    · exact h x hx
    · exact hpost x hx

theorem trimWord_post (c post : List Char) (hpost : ∀ x ∈ post, pcreSpace vt x = true) :
    trimWord vt (c ++ post) = trimWord vt c := by
  rw [trimWord_eq, trimWord_eq]
  by_cases hX : c.dropWhile (pcreSpace vt) = []
  · have : (c ++ post).dropWhile (pcreSpace vt) = [] :=
      (dropWhile_space_append_eq_nil c post hpost).2 hX
    rw [this, hX]
  · have e : (c ++ post).dropWhile (pcreSpace vt) = c.dropWhile (pcreSpace vt) ++ post := by
      rw [List.dropWhile_append, if_neg (by simpa [List.isEmpty_iff] using hX)]
    rw [e, takeWhile_append_space _ _ hpost, dropWhile_append_space _ _ hpost]
    by_cases hw : (c.dropWhile (pcreSpace vt)).takeWhile classAz = []
    · rw [if_pos hw, if_pos hw]
    · rw [if_neg hw, if_neg hw]
      by_cases hr : ((c.dropWhile (pcreSpace vt)).dropWhile classAz).dropWhile (pcreSpace vt) = []
      · rw [if_pos hr, if_pos ((dropWhile_space_append_eq_nil _ _ hpost).2 hr)]
      · rw [if_neg hr, if_neg (fun h => hr ((dropWhile_space_append_eq_nil _ _ hpost).1 h))]

/-- White space in front of and behind a piece does not change the word it trims to. -/
theorem trimWord_pad (pre c post : List Char) (hpre : ∀ x ∈ pre, pcreSpace vt x = true)
    (hpost : ∀ x ∈ post, pcreSpace vt x = true) :
    trimWord vt (pre ++ c ++ post) = trimWord vt c := by
  rw [trimWord_post _ _ hpost, trimWord_pre _ _ hpre]

theorem trimWords_pad : ∀ l : List (String × String × String),
    (∀ x ∈ l, (∀ c ∈ x.1.data, pcreSpace vt c = true) ∧ (∀ c ∈ x.2.2.data, pcreSpace vt c = true)) →
    trimWords vt ((l.map (fun x => x.1 ++ x.2.1 ++ x.2.2)).map String.data)
      = trimWords vt ((l.map (fun x => x.2.1)).map String.data)
  | [], _ => rfl
  | x :: l, h => by
    have hx := h x (List.mem_cons_self _ _)
    have ih := trimWords_pad l (fun y hy => h y (List.mem_cons_of_mem _ hy))
    simp only [List.map_cons, trimWords, String.data_append]
    rw [trimWord_pad _ _ _ hx.1 hx.2, ih]

/-! ## One flag per group, one bit per option -/

theorem same_group_eq {toks : List FlowToken} (hnd : (toks.map FlowToken.group).Nodup)
    {t u : FlowToken} (ht : t ∈ toks) (hu : u ∈ toks) (hg : t.group = u.group) : t = u :=
  List.inj_on_of_nodup_map hnd ht hu hg

/-- Two different masks of one group are never both set in a parsed condition. -/
theorem flagsOf_exclusive {K : FlowPkt} (hK : K.Separate) {toks : List FlowToken}
    (hnd : (toks.map FlowToken.group).Nodup) (a b : FlowToken) (hg : a.group = b.group)
    (hc : a.canon ≠ b.canon) :
    ¬ (hasFlag (flagsOf K toks) (a.flag K) ∧ hasFlag (flagsOf K toks) (b.flag K)) := by
  rintro ⟨ha, hb⟩
  obtain ⟨t, ht, et⟩ := (hasFlag_flagsOf hK toks a).1 ha
  obtain ⟨u, hu, eu⟩ := (hasFlag_flagsOf hK toks b).1 hb
  have hgt : t.group = u.group := by
    rw [← group_canon t, ← group_canon u, et, eu, group_canon, group_canon, hg]
  have := same_group_eq hnd ht hu hgt
  subst this
  exact hc (et.symm.trans eu)

theorem popcount_eq (n : Nat) : popcount n = n % 2 + popcount (n / 2) := by
  cases n with
  | zero => simp [popcount]
  | succ n => rw [popcount]

theorem popcount_two_pow : ∀ k : Nat, popcount (2 ^ k) = 1
  | 0 => by rw [popcount_eq]; simp [popcount]
  | k + 1 => by
    rw [popcount_eq, Nat.pow_succ, Nat.mul_mod_left, Nat.mul_div_cancel _ (by decide),
      popcount_two_pow k]

theorem popcount_or : ∀ (n a b : Nat), a + b ≤ n → a &&& b = 0 →
    popcount (a ||| b) = popcount a + popcount b
  | 0, a, b, hn, _ => by
    have ha : a = 0 := by omega
    have hb : b = 0 := by omega
    subst ha; subst hb; simp [popcount]
  | n + 1, a, b, hn, h => by
    by_cases h0 : a + b = 0
    · have ha : a = 0 := by omega
      have hb : b = 0 := by omega
      subst ha; subst hb; simp [popcount]
    · have hdiv : a / 2 &&& b / 2 = 0 := by rw [← Nat.and_div_two, h]
      have hmod : (a &&& b) % 2 = 0 := by rw [h]
      have h1 := @Nat.and_mod_two_eq_one a b
      have h2 := @Nat.or_mod_two_eq_one a b
      have ih := popcount_or n (a / 2) (b / 2) (by omega) hdiv
      rw [popcount_eq (a ||| b), popcount_eq a, popcount_eq b, Nat.or_div_two, ih]
      have : (a ||| b) % 2 = a % 2 + b % 2 := by omega
      omega

theorem flag_mem_masks (K : FlowPkt) (t : FlowToken) : t.flag K ∈ K.masks := by
  cases t <;> simp [FlowToken.flag, FlowPkt.masks]

theorem popcount_foldl {K : FlowPkt} (hK : K.Separate) (hB : K.SingleBits) :
    ∀ (toks : List FlowToken) (f : Nat), (toks.map FlowToken.group).Nodup →
      (∀ t ∈ toks, f &&& t.flag K = 0) →
      popcount (toks.foldl (fun f t => f ||| t.flag K) f) = popcount f + toks.length
  | [], f, _, _ => rfl
  | t :: toks, f, hnd, hf => by
    rw [List.map_cons, List.nodup_cons] at hnd
    obtain ⟨k, hk⟩ := hB _ (flag_mem_masks K t)
    have h1 : popcount (f ||| t.flag K) = popcount f + 1 := by
      rw [popcount_or _ _ _ (Nat.le_refl _) (hf t (List.mem_cons_self _ _)), hk,
        popcount_two_pow]
    rw [List.foldl_cons, popcount_foldl hK hB toks _ hnd.2, h1, List.length_cons]
    · omega
    · intro u hu
      rw [or_and_eq_zero]
      refine ⟨hf u (List.mem_cons_of_mem _ hu), hK.and_eq_zero t u (fun e => hnd.1 ?_)⟩
      have hg : t.group = u.group := by
        rw [← group_canon t, e, group_canon]
      exact hg ▸ List.mem_map_of_mem _ hu

/-- With single bit masks a parsed condition has as many bits as options. -/
theorem popcount_flagsOf {K : FlowPkt} (hK : K.Separate) (hB : K.SingleBits)
    (toks : List FlowToken) (hnd : (toks.map FlowToken.group).Nodup) :
    popcount (flagsOf K toks) = toks.length := by
  unfold flagsOf
  rw [popcount_foldl hK hB toks 0 hnd (fun t _ => Nat.zero_and _)]
  simp [popcount]

theorem flowPktBits_singleBits : flowPktBits.SingleBits := by
  intro a ha
  simp only [FlowPkt.masks, flowPktBits, List.mem_cons, List.mem_singleton,
    List.not_mem_nil, or_false] at ha
  rcases ha with rfl | rfl | rfl | rfl | rfl | rfl
  · exact ⟨0, rfl⟩
  · exact ⟨1, rfl⟩
  · exact ⟨2, rfl⟩
  · exact ⟨3, rfl⟩
  · exact ⟨6, rfl⟩
  · exact ⟨7, rfl⟩

/-! ## The count and the requirements -/

theorem trimWords_mem_rev : ∀ (chunks ws : List (List Char)), trimWords vt chunks = some ws →
    ∀ w ∈ ws, ∃ c ∈ chunks, trimWord vt c = some w
  | [], ws, h, w, hw => by
    simp only [trimWords, Option.some.injEq] at h
    subst h
    exact absurd hw (List.not_mem_nil _)
  | d :: chunks, ws, h, w, hw => by
    rw [trimWords] at h
    cases hd : trimWord vt d with
    | none => rw [hd] at h; exact absurd h (by simp)
    | some v =>
      cases hr : trimWords vt chunks with
      | none => rw [hd, hr] at h; exact absurd h (by simp)
      | some ws' =>
        rw [hd, hr] at h
        simp only [Option.some.injEq] at h
        subst h
        rcases List.mem_cons.1 hw with rfl | hw'
        · exact ⟨d, List.mem_cons_self _ _, hd⟩
        · obtain ⟨c, hc, e⟩ := trimWords_mem_rev chunks ws' hr w hw'
          exact ⟨c, List.mem_cons_of_mem _ hc, e⟩

theorem direction_mem_iff {K : FlowPkt} (hK : K.Separate) (toks : List FlowToken) :
    FlowGroup.direction ∈ toks.map FlowToken.group ↔
      hasFlag (flagsOf K toks) K.FLOW_PKT_TOSERVER ∨
      hasFlag (flagsOf K toks) K.FLOW_PKT_TOCLIENT := by
  obtain ⟨a1, a2, -, -⟩ := hasFlag_flagsOf_masks hK toks
  rw [a1, a2, List.mem_map]
  constructor
  · rintro ⟨t, ht, hg⟩
    cases t <;> first
      | exact absurd hg (by decide)
      | exact Or.inl ⟨_, ht, rfl⟩
      | exact Or.inr ⟨_, ht, rfl⟩
  · rintro (⟨t, ht, e⟩ | ⟨t, ht, e⟩) <;> exact ⟨t, ht, group_of_canon e⟩

theorem state_mem_iff {K : FlowPkt} (hK : K.Separate) (toks : List FlowToken) :
    FlowGroup.state ∈ toks.map FlowToken.group ↔
      hasFlag (flagsOf K toks) K.FLOW_PKT_ESTABLISHED ∨
      hasFlag (flagsOf K toks) K.FLOW_PKT_STATELESS := by
  obtain ⟨-, -, a3, a4⟩ := hasFlag_flagsOf_masks hK toks
  rw [a3, a4, List.mem_map]
  constructor
  · rintro ⟨t, ht, hg⟩
    cases t <;> first
      | exact absurd hg (by decide)
      | exact Or.inl ⟨_, ht, rfl⟩
      | exact Or.inr ⟨_, ht, rfl⟩
  · rintro (⟨t, ht, e⟩ | ⟨t, ht, e⟩) <;> exact ⟨t, ht, group_of_canon e⟩

/-- Without stream options the count reaches the number of options exactly when every
requirement of the condition holds on the packet. -/
theorem specCount_eq_length_iff {K : FlowPkt} (hK : K.Separate) (toks : List FlowToken)
    (hnd : (toks.map FlowToken.group).Nodup)
    (hns : FlowGroup.stream ∉ toks.map FlowToken.group) (flowflags : Nat) :
    specCount K (flagsOf K toks) flowflags = toks.length ↔
      (hasFlag (flagsOf K toks) K.FLOW_PKT_TOSERVER → hasFlag flowflags K.FLOW_PKT_TOSERVER) ∧
      (hasFlag (flagsOf K toks) K.FLOW_PKT_TOCLIENT → hasFlag flowflags K.FLOW_PKT_TOCLIENT) ∧
      (hasFlag (flagsOf K toks) K.FLOW_PKT_ESTABLISHED →
        hasFlag flowflags K.FLOW_PKT_ESTABLISHED) := by
  have hlen := groups_length _ hnd
  rw [List.length_map, if_neg hns] at hlen
  have hx1 := flagsOf_exclusive hK hnd .to_server .to_client rfl (by decide)
  have hx2 := flagsOf_exclusive hK hnd .established .stateless rfl (by decide)
  have hd := direction_mem_iff hK toks
  have hs := state_mem_iff hK toks
  simp only [FlowToken.flag] at hx1 hx2
  rw [hlen]
  unfold specCount
  simp only [hd, hs]
  by_cases c1 : hasFlag (flagsOf K toks) K.FLOW_PKT_TOSERVER <;>
    by_cases c2 : hasFlag (flagsOf K toks) K.FLOW_PKT_TOCLIENT <;>
    by_cases c3 : hasFlag (flagsOf K toks) K.FLOW_PKT_ESTABLISHED <;>
    by_cases c4 : hasFlag (flagsOf K toks) K.FLOW_PKT_STATELESS <;>
    by_cases p1 : hasFlag flowflags K.FLOW_PKT_TOSERVER <;>
    by_cases p2 : hasFlag flowflags K.FLOW_PKT_TOCLIENT <;>
    by_cases p3 : hasFlag flowflags K.FLOW_PKT_ESTABLISHED <;>
    simp only [c1, c2, c3, c4, p1, p2, p3, true_and, and_true, and_false, false_and,
      or_true, true_or, or_false, false_or, if_true, if_false, and_self, not_true_eq_false,
      not_false_eq_true, true_implies, false_implies, implies_true, imp_self,
      Nat.add_zero, Nat.zero_add, Nat.reduceAdd, Nat.reduceEqDiff, OfNat.ofNat_ne_zero,
      OfNat.zero_ne_ofNat, one_ne_zero, zero_ne_one] at hx1 hx2 ⊢

/-! ## Input without a word -/

theorem classAz_of_isspace {c : Char} (h : isspace c = true) : classAz c = false := by
  simp only [isspace, Bool.or_eq_true, decide_eq_true_eq] at h
  rcases h with ((((h | h) | h) | h) | h) | h <;> subst h <;> rfl

theorem lexWord_of_no_word (s : List Char) (h : ∀ c ∈ s, classAz c = false) :
    lexWord vt s = none := by
  unfold lexWord
  rw [if_pos]
  cases hd : s.dropWhile (pcreSpace vt) with
  | nil => rfl
  | cons x xs =>
    have hx : x ∈ s := List.dropWhile_subset _ (hd ▸ List.mem_cons_self _ _)
    rw [List.takeWhile_cons_of_neg (by simp [h x hx])]

/-! ## GetData -/

theorem GetData_cached {Buf Transforms Tx Flow : Type} (api : SipBufferApi Buf Transforms Tx)
    (det_ctx : Int → Buf) (transforms : Transforms) (f : Flow) (flow_flags : Nat)
    (txv : Tx) (list_id : Int) (h : api.inspect (det_ctx list_id) ≠ 0) :
    GetData api det_ctx transforms f flow_flags txv list_id
      = ⟨some (det_ctx list_id), det_ctx, 0, 0⟩ := by
  simp only [GetData, h, if_false]

theorem GetData_absent {Buf Transforms Tx Flow : Type} (api : SipBufferApi Buf Transforms Tx)
    (det_ctx : Int → Buf) (transforms : Transforms) (f : Flow) (flow_flags : Nat)
    (txv : Tx) (list_id : Int) (h : api.inspect (det_ctx list_id) = 0)
    (hacc : (api.rs_sip_tx_get_request_line txv).1 ≠ 1 ∨
      (api.rs_sip_tx_get_request_line txv).2.1 = 0 ∨
      (api.rs_sip_tx_get_request_line txv).2.2 = 0) :
    GetData api det_ctx transforms f flow_flags txv list_id = ⟨none, det_ctx, 1, 0⟩ := by
  simp only [GetData, h, if_true]
  by_cases h1 : (api.rs_sip_tx_get_request_line txv).1 = 1
  · have h2 : (api.rs_sip_tx_get_request_line txv).2.1 = 0 ∨
        (api.rs_sip_tx_get_request_line txv).2.2 = 0 := by
      rcases hacc with h | h
      · exact absurd h1 h
      · exact h
    simp only [h1, ne_eq, not_true_eq_false, if_false, h2, if_true]
  · simp only [ne_eq, h1, not_false_eq_true, if_true]

theorem GetData_present {Buf Transforms Tx Flow : Type} (api : SipBufferApi Buf Transforms Tx)
    (det_ctx : Int → Buf) (transforms : Transforms) (f : Flow) (flow_flags : Nat)
    (txv : Tx) (list_id : Int) (h : api.inspect (det_ctx list_id) = 0)
    (h1 : (api.rs_sip_tx_get_request_line txv).1 = 1)
    (h2 : (api.rs_sip_tx_get_request_line txv).2.1 ≠ 0)
    (h3 : (api.rs_sip_tx_get_request_line txv).2.2 ≠ 0) :
    GetData api det_ctx transforms f flow_flags txv list_id =
      ⟨some (api.InspectionBufferApplyTransforms
          (api.InspectionBufferSetup (det_ctx list_id)
            (api.rs_sip_tx_get_request_line txv).2.1
            (api.rs_sip_tx_get_request_line txv).2.2) transforms),
        Function.update det_ctx list_id (api.InspectionBufferApplyTransforms
          (api.InspectionBufferSetup (det_ctx list_id)
            (api.rs_sip_tx_get_request_line txv).2.1
            (api.rs_sip_tx_get_request_line txv).2.2) transforms), 1, 1⟩ := by
  simp only [GetData, h, if_true, h1, ne_eq, not_true_eq_false, if_false, h2, h3, or_self]

/-- Once the buffer of the list id is computed, no call of a sequence runs the accessor. -/
theorem GetDataCalls_cached {Buf Transforms Tx Flow : Type}
    (api : SipBufferApi Buf Transforms Tx) (transforms : Transforms) (f : Flow)
    (flow_flags : Nat) (txv : Tx) (list_id : Int) :
    ∀ (n : Nat) (det_ctx : Int → Buf), api.inspect (det_ctx list_id) ≠ 0 →
      GetDataCalls api transforms f flow_flags txv list_id n det_ctx = (det_ctx, 0)
  | 0, _, _ => rfl
  | n + 1, det_ctx, h => by
    simp only [GetDataCalls, GetData_cached api det_ctx transforms f flow_flags txv list_id h,
      GetDataCalls_cached api transforms f flow_flags txv list_id n det_ctx h]

/-- As long as the accessor has no data, every call of a sequence runs it again. -/
theorem GetDataCalls_absent {Buf Transforms Tx Flow : Type}
    (api : SipBufferApi Buf Transforms Tx) (transforms : Transforms) (f : Flow)
    (flow_flags : Nat) (txv : Tx) (list_id : Int) (det_ctx : Int → Buf)
    (h : api.inspect (det_ctx list_id) = 0)
    (hacc : (api.rs_sip_tx_get_request_line txv).1 ≠ 1 ∨
      (api.rs_sip_tx_get_request_line txv).2.1 = 0 ∨
      (api.rs_sip_tx_get_request_line txv).2.2 = 0) :
    ∀ n : Nat, GetDataCalls api transforms f flow_flags txv list_id n det_ctx = (det_ctx, n)
  | 0 => rfl
  | n + 1 => by
    simp only [GetDataCalls, GetData_absent api det_ctx transforms f flow_flags txv list_id h hacc,
      GetDataCalls_absent api transforms f flow_flags txv list_id det_ctx h hacc n]
    rw [Nat.add_comm]

/-! ## Empty pieces, case variants, broken words -/

theorem ne_comma_of_isspace {c : Char} (h : isspace c = true) : c ≠ ',' := by
  rintro rfl; exact absurd h (by decide)

theorem trimWord_of_no_word (c : List Char) (h : ∀ x ∈ c, classAz x = false) :
    trimWord vt c = none := by
  rw [trimWord, lexWord_of_no_word c h]

theorem trimWord_blank (ws : List Char) (h : ∀ x ∈ ws, isspace x = true) (t : FlowToken) :
    trimWord vt ws ≠ some t.name.data := by
  rw [trimWord_of_no_word ws (fun x hx => classAz_of_isspace (h x hx))]
  simp

theorem splitComma_blank (ws : List Char) (h : ∀ x ∈ ws, isspace x = true) :
    splitComma ws = [ws] :=
  splitComma_of_not_mem ws (fun hm => ne_comma_of_isspace (h _ hm) rfl)

theorem name_lower (t : FlowToken) : t.name.data.map Char.toLower = t.name.data := by
  cases t <;> decide

theorem classAz_of_toLower {c : Char} (h : classAz c.toLower = true) : classAz c = true := by
  unfold Char.toLower at h
  dsimp only at h
  split at h
  · next hu =>
    simp only [classAz, Bool.or_eq_true, Bool.and_eq_true, decide_eq_true_eq]
    exact Or.inl ⟨hu.1, by omega⟩
  · exact h

/-- A word that differs from an option word in the case of letters only is a word of the
class `[A-z_]` that is none of the option words. -/
theorem trimWord_case_variant (c : List Char) (t : FlowToken) (hne : c ≠ t.name.data)
    (hlow : c.map Char.toLower = t.name.data) (u : FlowToken) :
    trimWord vt c ≠ some u.name.data := by
  have hall : ∀ x ∈ c, classAz x = true := by
    intro x hx
    apply classAz_of_toLower
    apply name_all_word t
    rw [← hlow]
    exact List.mem_map_of_mem _ hx
  have hnil : c ≠ [] := by
    rintro rfl
    obtain ⟨x, xs, e, -⟩ := name_cons t
    rw [e] at hlow
    exact absurd hlow (by simp)
  rw [trimWord_of_padded hnil hall ⟨[], [], by simp, by simp, by simp⟩]
  intro e
  simp only [Option.some.injEq] at e
  rw [e, name_lower] at hlow
  exact hne (by rw [e, name_data_injective u t hlow])

/-- An option word with white space inside does not trim to a word. -/
theorem trimWord_broken (x ws y : List Char) (t : FlowToken) (hx : x ≠ []) (hy : y ≠ [])
    (hws : ws ≠ []) (hsp : ∀ s ∈ ws, isspace s = true) (hxy : x ++ y = t.name.data)
    (u : FlowToken) : trimWord vt (x ++ ws ++ y) ≠ some u.name.data := by
  have hallx : ∀ c ∈ x, classAz c = true := fun c hc =>
    name_all_word t c (hxy ▸ List.mem_append_left _ hc)
  have hally : ∀ c ∈ y, classAz c = true := fun c hc =>
    name_all_word t c (hxy ▸ List.mem_append_right _ hc)
  obtain ⟨x0, xs, rfl⟩ := List.exists_cons_of_ne_nil hx
  obtain ⟨s0, ss, rfl⟩ := List.exists_cons_of_ne_nil hws
  obtain ⟨y0, ys, rfl⟩ := List.exists_cons_of_ne_nil hy
  have hx0 : pcreSpace vt x0 = false := space_of_classAz (hallx x0 (List.mem_cons_self _ _))
  have hs0 : classAz s0 = false := classAz_of_isspace (hsp s0 (List.mem_cons_self _ _))
  have hy0 : pcreSpace vt y0 = false := space_of_classAz (hally y0 (List.mem_cons_self _ _))
  have e1 : (x0 :: xs ++ s0 :: ss ++ y0 :: ys).dropWhile (pcreSpace vt)
      = x0 :: xs ++ (s0 :: ss ++ y0 :: ys) := by
    rw [List.append_assoc, List.cons_append, dropWhile_space_of_not hx0]
  have e2 : ((x0 :: xs) ++ (s0 :: ss ++ y0 :: ys)).dropWhile classAz
      = s0 :: ss ++ y0 :: ys := by
    rw [List.dropWhile_append_of_pos hallx, List.cons_append,
      List.dropWhile_cons_of_neg (by simp [hs0])]
  have e3 : (s0 :: ss ++ y0 :: ys).dropWhile (pcreSpace vt) ≠ [] := by
    rw [Ne, List.dropWhile_eq_nil_iff]
    intro h
    have := h y0 (List.mem_append_right _ (List.mem_cons_self _ _))
    rw [hy0] at this
    exact absurd this (by decide)
  rw [trimWord_eq, e1, e2, if_neg e3]
  split <;> simp

/-! ## Where the two readings of the white space class part -/

/-- An option word with VT next to it is read when the class `\s` of the library holds VT
and is refused when it does not; with VT in the class, a stream word padded by VT is an
option of the parsed condition like any other. -/
theorem DetectFlowParse_vertical_tab :
    DetectFlowParse true flowPktBits "\x0bestablished" = some ⟨0x04, 1⟩ ∧
    DetectFlowParse false flowPktBits "\x0bestablished" = none ∧
    DetectFlowParse true flowPktBits "\x0bstream_only,established" = some ⟨0x84, 2⟩ ∧
    DetectFlowParse false flowPktBits "\x0bstream_only,established" = none := by
  decide

/-- Both readings of `\s` lie inside the white space of `isspace`. -/
theorem isspace_of_space {c : Char} (h : pcreSpace vt c = true) : isspace c = true := by
  simp only [pcreSpace, Bool.or_eq_true, Bool.and_eq_true, decide_eq_true_eq] at h
  rcases h with ((((h | h) | h) | h) | h) | ⟨_, h⟩ <;> subst h <;> rfl

/-- With VT in the class, `\s` is the white space of `isspace`. -/
theorem pcreSpace_true_eq_isspace (c : Char) : pcreSpace true c = isspace c := by
  simp only [pcreSpace, isspace, Bool.true_and]
  by_cases h1 : c = ' ' <;> by_cases h2 : c = '\t' <;> by_cases h3 : c = '\n' <;>
    by_cases h4 : c = '\x0b' <;> by_cases h5 : c = '\x0c' <;> by_cases h6 : c = '\r' <;>
    simp [h1, h2, h3, h4, h5, h6]

/-! ## Parsing valid option lists -/

/-- C1: a single recognised option word parses to a condition with `match_cnt` 1 and exactly
the flag of that word; and every list of one to three recognised words from pairwise
different groups, joined by commas, parses to the condition whose flags are the union of the
flags of the words (no other bit) and whose `match_cnt` is the number of words. -/
theorem DetectFlowParse_valid (vt : Bool) (K : FlowPkt) (hK : K.Separate) :
    (∀ t : FlowToken, DetectFlowParse vt K t.name = some ⟨t.flag K, 1⟩) ∧
    (∀ toks : List FlowToken, 1 ≤ toks.length → toks.length ≤ 3 →
      (toks.map FlowToken.group).Nodup →
      DetectFlowParse vt K (",".intercalate (toks.map FlowToken.name))
        = some ⟨flagsOf K toks, toks.length⟩) := by
  have main : ∀ toks : List FlowToken, 1 ≤ toks.length → toks.length ≤ 3 →
      (toks.map FlowToken.group).Nodup →
      DetectFlowParse vt K (",".intercalate (toks.map FlowToken.name))
        = some ⟨flagsOf K toks, toks.length⟩ := by
    intro toks h1 h3 hg
    have hne : toks ≠ [] := by
      rintro rfl; simp at h1
    exact DetectFlowParse_ok hK toks hne h3 hg
  refine ⟨fun t => ?_, main⟩
  have := main [t] (by simp) (by simp) (by simp)
  simpa [flagsOf, String.intercalate, String.intercalate.go] using this

/-- C1 at `from_server,established,stream_only`, the input of the unit test
`DetectFlowTestParse18`. -/
theorem DetectFlowParse_valid_witness :
    flowPktBits.Separate ∧
    DetectFlowParse true flowPktBits "from_server,established,stream_only" = some ⟨0x86, 3⟩ :=
  ⟨by decide,
   (DetectFlowParse_valid true flowPktBits (by decide)).2
     [.from_server, .established, .stream_only] (by decide) (by decide) (by decide)⟩

/-! ## Conflicting options -/

/-- C2: a list of two or three recognised option words, joined by commas, in which two
positions hold words of the same group (the same word twice, a word and its synonym, or
the two opposite words) is rejected. -/
theorem DetectFlowParse_conflict (vt : Bool) (K : FlowPkt) (hK : K.Separate) (toks : List FlowToken)
    (h2 : 2 ≤ toks.length) (h3 : toks.length ≤ 3)
    (hg : ∃ i j : Fin toks.length, i ≠ j ∧ (toks.get i).group = (toks.get j).group) :
    DetectFlowParse vt K (",".intercalate (toks.map FlowToken.name)) = none := by
  have hne : toks ≠ [] := by
    rintro rfl; simp at h2
  have hnd : ¬ (toks.map FlowToken.group).Nodup := by
    intro hnd
    obtain ⟨i, j, hij, he⟩ := hg
    have hi : i.1 < (toks.map FlowToken.group).length := by simp
    have hj : j.1 < (toks.map FlowToken.group).length := by simp
    have e : (toks.map FlowToken.group).get ⟨i.1, hi⟩
        = (toks.map FlowToken.group).get ⟨j.1, hj⟩ := by simpa using he
    have := (List.Nodup.get_inj_iff hnd).1 e
    exact hij (Fin.ext (Fin.mk.inj this))
  rw [DetectFlowParse_tokens K toks hne, if_pos h3, parseWords_conflict hK toks _ hnd]

/-- C2 at `to_client,from_server`, the input of the unit test `DetectFlowTestParse17`. -/
theorem DetectFlowParse_conflict_witness :
    flowPktBits.Separate ∧ DetectFlowParse true flowPktBits "to_client,from_server" = none :=
  ⟨by decide,
   DetectFlowParse_conflict true flowPktBits (by decide) [.to_client, .from_server]
     (by decide) (by decide) ⟨⟨0, by decide⟩, ⟨1, by decide⟩, by decide, rfl⟩⟩

/-! ## Invalid separators and unknown words -/

/-- C3: whichever way the class `\s` of the library treats VT, option words written with a
separator character in front of each but the first are rejected as soon as one separator is
not a comma; and a list of one to three comma-free pieces joined by commas is rejected as
soon as one piece, at whatever position, is not one of the eight option words with or
without white space of that class around it. -/
theorem DetectFlowParse_invalid (vt : Bool) (K : FlowPkt) :
    (∀ (t : FlowToken) (rest : List (Char × FlowToken)), (∃ cu ∈ rest, cu.1 ≠ ',') →
      DetectFlowParse vt K (String.mk (sepJoin t rest)) = none) ∧
    (∀ pieces : List String, 1 ≤ pieces.length → pieces.length ≤ 3 →
      (∀ c ∈ pieces, ',' ∉ c.data) →
      (∃ c ∈ pieces, ∀ t : FlowToken, ¬ IsPadded vt c.data t.name.data) →
      DetectFlowParse vt K (",".intercalate pieces) = none) := by
  constructor
  · intro t rest h
    obtain ⟨piece, hp, hbad⟩ := splitComma_sepJoin_bad rest t h
    exact DetectFlowParse_bad_piece K _ piece hp hbad
  · intro pieces h1 _ hcomma hunk
    obtain ⟨c, hc, hbad⟩ := hunk
    apply DetectFlowParse_bad_piece K _ c.data
    · rw [intercalate_comma_data, splitComma_joinComma]
      · exact List.mem_map_of_mem _ hc
      · intro e
        rw [List.map_eq_nil_iff] at e
        rw [e] at h1
        simp at h1
      · intro d hd
        obtain ⟨s, hs, rfl⟩ := List.mem_map.1 hd
        exact hcomma s hs
    · intro t e
      exact hbad t (trimWord_padded e)

/-- C3 at `from_server:stateless` and at `from_server,a,no_stream`, the inputs of the unit
tests `DetectFlowTestParse12` and `DetectFlowTestParse21`. -/
theorem DetectFlowParse_invalid_witness :
    DetectFlowParse true flowPktBits "from_server:stateless" = none ∧
    DetectFlowParse true flowPktBits "from_server,a,no_stream" = none :=
  ⟨(DetectFlowParse_invalid true flowPktBits).1 .from_server [(':', .stateless)]
      ⟨(':', .stateless), List.mem_singleton_self _, by decide⟩,
   (DetectFlowParse_invalid true flowPktBits).2 ["from_server", "a", "no_stream"]
      (by decide) (by decide) (by decide)
      ⟨"a", by decide, fun t ⟨pre, post, _, _, e⟩ => by
        have hl := congrArg List.length e
        have := name_length t
        simp only [List.length_append, List.length_singleton] at hl
        omega⟩⟩

/-! ## Too many options, empty input -/

theorem splitComma_length : ∀ s : List Char, (splitComma s).length = s.count ',' + 1
  | [] => rfl
  | c :: s => by
    have ih := splitComma_length s
    have hne := splitComma_ne_nil s
    by_cases hc : c = ','
    · subst hc
      simp [splitComma, ih]
    · have hc' : (c == ',') = false := by simpa using hc
      simp only [splitComma, hc, if_false, List.length_cons, List.length_tail, ih,
        List.count_cons, hc']
      simp

/-- C4: an input with three or more commas, that is with more than three pieces between
commas, is rejected, whatever the pieces are. -/
theorem DetectFlowParse_too_many (vt : Bool) (K : FlowPkt) (flowstr : String)
    (h : 3 ≤ flowstr.data.count ',') : DetectFlowParse vt K flowstr = none := by
  rw [DetectFlowParse_eq_split, splitComma_length, if_neg (by omega)]

/-- C4 at `from_server,established,stream_only,a`, the input of the unit test
`DetectFlowTestParse19`. -/
theorem DetectFlowParse_too_many_witness :
    DetectFlowParse true flowPktBits "from_server,established,stream_only,a" = none :=
  DetectFlowParse_too_many true flowPktBits "from_server,established,stream_only,a" (by decide)

/-- C5: the empty string is rejected, and so is every string that consists of white space
only. -/
theorem DetectFlowParse_blank (vt : Bool) (K : FlowPkt) :
    DetectFlowParse vt K "" = none ∧
    ∀ flowstr : String, (∀ c ∈ flowstr.data, isspace c = true) →
      DetectFlowParse vt K flowstr = none := by
  have main : ∀ flowstr : String, (∀ c ∈ flowstr.data, isspace c = true) →
      DetectFlowParse vt K flowstr = none := by
    intro flowstr h
    rw [DetectFlowParse_eq_lex]
    simp only [lexList, lexWord_of_no_word _ (fun c hc => classAz_of_isspace (h c hc))]
    rfl
  exact ⟨main "" (fun c hc => absurd hc (List.not_mem_nil _)), main⟩

/-- C5 at a string of a space, a tab and a newline. -/
theorem DetectFlowParse_blank_witness : DetectFlowParse true flowPktBits " \t\n" = none :=
  (DetectFlowParse_blank true flowPktBits).2 " \t\n" (by decide)


/-! ## The matcher -/

/-- C6: for every condition (any flags, any `match_cnt`) and every packet, the matcher
returns 1 when the count of the specification equals `match_cnt`, and 0 otherwise. -/
theorem DetectFlowMatch_eq_specCount {ThreadVars PatternMatcherThread Signature : Type}
    (K : FlowPkt) (t : ThreadVars) (pmt : PatternMatcherThread) (p : Packet) (s : Signature)
    (m : SigMatch) :
    DetectFlowMatch K t pmt p s m
      = if specCount K m.ctx.flags p.flowflags = m.ctx.match_cnt then 1 else 0 := by
  unfold DetectFlowMatch specCount hasFlag
  dsimp only
  split_ifs <;> first | rfl | omega

/-! ## Parsing and matching together -/

/-- C7: the condition parsed from `established` matches exactly the packets that have the
established flag (so the packet with just that flag matches and the packet without flags
does not); the condition parsed from `established,to_client` matches exactly the packets
that have both the established and the to-client flag (so the packet with these two flags
matches and the packet with the established flag alone does not). -/
theorem parse_match_established {ThreadVars PatternMatcherThread Signature : Type}
    (vt : Bool)
    (K : FlowPkt) (hK : K.Separate) (t : ThreadVars) (pmt : PatternMatcherThread)
    (s : Signature) (ty : Nat) :
    (∀ p : Packet,
      (DetectFlowParse vt K "established").map (fun fd => DetectFlowMatch K t pmt p s ⟨ty, fd⟩)
        = some (if hasFlag p.flowflags K.FLOW_PKT_ESTABLISHED then 1 else 0)) ∧
    (DetectFlowParse vt K "established").map
        (fun fd => DetectFlowMatch K t pmt ⟨K.FLOW_PKT_ESTABLISHED⟩ s ⟨ty, fd⟩) = some 1 ∧
    (DetectFlowParse vt K "established").map
        (fun fd => DetectFlowMatch K t pmt ⟨0⟩ s ⟨ty, fd⟩) = some 0 ∧
    (∀ p : Packet,
      (DetectFlowParse vt K "established,to_client").map
          (fun fd => DetectFlowMatch K t pmt p s ⟨ty, fd⟩)
        = some (if hasFlag p.flowflags K.FLOW_PKT_ESTABLISHED ∧
            hasFlag p.flowflags K.FLOW_PKT_TOCLIENT then 1 else 0)) ∧
    (DetectFlowParse vt K "established,to_client").map
        (fun fd => DetectFlowMatch K t pmt
          ⟨K.FLOW_PKT_ESTABLISHED ||| K.FLOW_PKT_TOCLIENT⟩ s ⟨ty, fd⟩) = some 1 ∧
    (DetectFlowParse vt K "established,to_client").map
        (fun fd => DetectFlowMatch K t pmt ⟨K.FLOW_PKT_ESTABLISHED⟩ s ⟨ty, fd⟩) = some 0 := by
  have p1 : DetectFlowParse vt K "established" = some ⟨flagsOf K [.established], 1⟩ :=
    DetectFlowParse_ok hK [.established] (by simp) (by simp) (by decide)
  have p2 : DetectFlowParse vt K "established,to_client"
      = some ⟨flagsOf K [.established, .to_client], 2⟩ :=
    DetectFlowParse_ok hK [.established, .to_client] (by simp) (by simp) (by decide)
  obtain ⟨a1, a2, a3, a4⟩ := hasFlag_flagsOf_masks hK [.established]
  obtain ⟨b1, b2, b3, b4⟩ := hasFlag_flagsOf_masks hK [.established, .to_client]
  have a1' : ¬ hasFlag (flagsOf K [.established]) K.FLOW_PKT_TOSERVER :=
    fun h => absurd (a1.1 h) (by decide)
  have a2' : ¬ hasFlag (flagsOf K [.established]) K.FLOW_PKT_TOCLIENT :=
    fun h => absurd (a2.1 h) (by decide)
  have a3' : hasFlag (flagsOf K [.established]) K.FLOW_PKT_ESTABLISHED := a3.2 (by decide)
  have a4' : ¬ hasFlag (flagsOf K [.established]) K.FLOW_PKT_STATELESS :=
    fun h => absurd (a4.1 h) (by decide)
  have b1' : ¬ hasFlag (flagsOf K [.established, .to_client]) K.FLOW_PKT_TOSERVER :=
    fun h => absurd (b1.1 h) (by decide)
  have b2' : hasFlag (flagsOf K [.established, .to_client]) K.FLOW_PKT_TOCLIENT :=
    b2.2 (by decide)
  have b3' : hasFlag (flagsOf K [.established, .to_client]) K.FLOW_PKT_ESTABLISHED :=
    b3.2 (by decide)
  have b4' : ¬ hasFlag (flagsOf K [.established, .to_client]) K.FLOW_PKT_STATELESS :=
    fun h => absurd (b4.1 h) (by decide)
  have ee : hasFlag K.FLOW_PKT_ESTABLISHED K.FLOW_PKT_ESTABLISHED :=
    hasFlag_self hK .established
  have ec : ¬ hasFlag K.FLOW_PKT_ESTABLISHED K.FLOW_PKT_TOCLIENT :=
    fun h => h (hK.and_eq_zero .established .to_client (by decide))
  have h1 : ∀ p : Packet,
      (DetectFlowParse vt K "established").map (fun fd => DetectFlowMatch K t pmt p s ⟨ty, fd⟩)
        = some (if hasFlag p.flowflags K.FLOW_PKT_ESTABLISHED then 1 else 0) := by
    intro p
    rw [p1, Option.map_some', DetectFlowMatch_eq_count]
    simp only [specCount, a1', a2', a3', a4', false_and, or_self, if_false, true_and,
      or_false, Nat.zero_add]
    by_cases he : hasFlag p.flowflags K.FLOW_PKT_ESTABLISHED
    · simp only [he, if_true]
    · simp only [he, if_false]; rfl
  have h2 : ∀ p : Packet,
      (DetectFlowParse vt K "established,to_client").map
          (fun fd => DetectFlowMatch K t pmt p s ⟨ty, fd⟩)
        = some (if hasFlag p.flowflags K.FLOW_PKT_ESTABLISHED ∧
            hasFlag p.flowflags K.FLOW_PKT_TOCLIENT then 1 else 0) := by
    intro p
    rw [p2, Option.map_some', DetectFlowMatch_eq_count]
    simp only [specCount, b1', b2', b3', b4', false_and, false_or, true_and, or_false]
    by_cases he : hasFlag p.flowflags K.FLOW_PKT_ESTABLISHED <;>
      by_cases hc : hasFlag p.flowflags K.FLOW_PKT_TOCLIENT <;>
      simp only [he, hc, if_true, if_false, and_self, and_false, false_and] <;> rfl
  refine ⟨h1, ?_, ?_, h2, ?_, ?_⟩
  · rw [h1, if_pos ee]
  · rw [h1, if_neg (fun h => h (Nat.zero_and _))]
  · rw [h2, if_pos]
    simp only [hasFlag, Nat.and_distrib_right, Nat.and_self, ne_eq, or_eq_zero_iff, not_and]
    exact ⟨fun h => absurd h (hK.flag_ne_zero .established),
      fun _ h => absurd h (hK.flag_ne_zero .to_client)⟩
  · rw [h2, if_neg (fun h => ec h.2)]

/-- C7 at the single bit masks: a packet with the established and the to-client flag and a
packet without the established flag. -/
theorem parse_match_established_witness :
    flowPktBits.Separate ∧
    (DetectFlowParse true flowPktBits "established,to_client").map
        (fun fd => DetectFlowMatch flowPktBits () () ⟨0x06⟩ () ⟨0, fd⟩) = some 1 ∧
    (DetectFlowParse true flowPktBits "established").map
        (fun fd => DetectFlowMatch flowPktBits () () ⟨0x02⟩ () ⟨0, fd⟩) = some 0 :=
  ⟨by decide,
   (parse_match_established true flowPktBits (by decide) () () () 0).2.2.2.2.1,
   (parse_match_established true flowPktBits (by decide) () () () 0).1 ⟨0x02⟩⟩

/-! ## Stream options -/

/-- C8: when the parser accepts an input one of whose pieces is `stream_only` or
`no_stream` (alone or next to direction and state words, with or without white space
around it), the matcher returns 0 on the resulting condition for every packet. -/
theorem stream_option_unsatisfiable {ThreadVars PatternMatcherThread Signature : Type}
    (vt : Bool)
    (K : FlowPkt) (hK : K.Separate) (pieces : List String)
    (hcomma : ∀ c ∈ pieces, ',' ∉ c.data)
    (hs : ∃ c ∈ pieces, IsPadded vt c.data "stream_only".data ∨ IsPadded vt c.data "no_stream".data)
    (fd : DetectFlowData) (hp : DetectFlowParse vt K (",".intercalate pieces) = some fd)
    (t : ThreadVars) (pmt : PatternMatcherThread) (p : Packet) (s : Signature) (ty : Nat) :
    DetectFlowMatch K t pmt p s ⟨ty, fd⟩ = 0 := by
  obtain ⟨c, hc, hpad⟩ := hs
  have hne : pieces ≠ [] := List.ne_nil_of_mem hc
  obtain ⟨toks, -, hnd, rfl, hmem⟩ := DetectFlowParse_inv_mem hK hp
  have hcm : c.data ∈ splitComma (",".intercalate pieces).data := by
    rw [intercalate_pieces_split pieces hne hcomma]
    exact List.mem_map_of_mem _ hc
  have hstream : FlowGroup.stream ∈ toks.map FlowToken.group := by
    rcases hpad with h | h
    · exact List.mem_map.2 ⟨.stream_only, hmem _ .stream_only hcm h, rfl⟩
    · exact List.mem_map.2 ⟨.no_stream, hmem _ .no_stream hcm h, rfl⟩
  have hlen := groups_length _ hnd
  rw [List.length_map, if_pos hstream] at hlen
  have hle := specCount_le hK toks p.flowflags
  rw [DetectFlowMatch_eq_count, if_neg]
  show specCount K (flagsOf K toks) p.flowflags ≠ toks.length
  omega

/-- C8 at `from_server,established,stream_only`, with a packet that has the to-client and
the established flag. -/
theorem stream_option_unsatisfiable_witness :
    flowPktBits.Separate ∧
    DetectFlowParse true flowPktBits "from_server,established,stream_only" = some ⟨0x86, 3⟩ ∧
    DetectFlowMatch flowPktBits () () ⟨0x06⟩ () ⟨0, ⟨0x86, 3⟩⟩ = 0 :=
  ⟨by decide, by decide,
   stream_option_unsatisfiable true flowPktBits (by decide)
     ["from_server", "established", "stream_only"] (by decide)
     ⟨"stream_only", by decide, Or.inl ⟨[], [], by simp, by simp, by simp⟩⟩
     ⟨0x86, 3⟩ (by decide) () () ⟨0x06⟩ () 0⟩

/-! ## Stateless conditions -/

/-- C9: the condition parsed from `stateless` matches every packet; and on every parsed
condition that has the stateless flag, the matcher gives the same result for two packets
whose flags agree on every bit outside the established mask. -/
theorem stateless_any_state {ThreadVars PatternMatcherThread Signature : Type}
    (vt : Bool)
    (K : FlowPkt) (hK : K.Separate) (t : ThreadVars) (pmt : PatternMatcherThread)
    (s : Signature) (ty : Nat) :
    (∀ p : Packet,
      (DetectFlowParse vt K "stateless").map (fun fd => DetectFlowMatch K t pmt p s ⟨ty, fd⟩)
        = some 1) ∧
    (∀ (flowstr : String) (fd : DetectFlowData), DetectFlowParse vt K flowstr = some fd →
      hasFlag fd.flags K.FLOW_PKT_STATELESS →
      ∀ p₁ p₂ : Packet,
        (∀ i, K.FLOW_PKT_ESTABLISHED.testBit i = false →
          p₁.flowflags.testBit i = p₂.flowflags.testBit i) →
        DetectFlowMatch K t pmt p₁ s ⟨ty, fd⟩ = DetectFlowMatch K t pmt p₂ s ⟨ty, fd⟩) := by
  constructor
  · intro p
    have p1 : DetectFlowParse vt K "stateless" = some ⟨flagsOf K [.stateless], 1⟩ :=
      DetectFlowParse_ok hK [.stateless] (by simp) (by simp) (by decide)
    obtain ⟨a1, a2, a3, a4⟩ := hasFlag_flagsOf_masks hK [.stateless]
    have a1' : ¬ hasFlag (flagsOf K [.stateless]) K.FLOW_PKT_TOSERVER :=
      fun h => absurd (a1.1 h) (by decide)
    have a2' : ¬ hasFlag (flagsOf K [.stateless]) K.FLOW_PKT_TOCLIENT :=
      fun h => absurd (a2.1 h) (by decide)
    have a4' : hasFlag (flagsOf K [.stateless]) K.FLOW_PKT_STATELESS := a4.2 (by decide)
    rw [p1, Option.map_some', DetectFlowMatch_eq_count]
    simp only [specCount, a1', a2', a4', false_and, or_self, if_false, or_true, if_true,
      Nat.zero_add]
  · intro flowstr fd hp hst p₁ p₂ hagree
    have hs : hasFlag p₁.flowflags K.FLOW_PKT_TOSERVER
        ↔ hasFlag p₂.flowflags K.FLOW_PKT_TOSERVER :=
      hasFlag_of_agree hagree (hK.and_eq_zero .to_server .established (by decide))
    have hc : hasFlag p₁.flowflags K.FLOW_PKT_TOCLIENT
        ↔ hasFlag p₂.flowflags K.FLOW_PKT_TOCLIENT :=
      hasFlag_of_agree hagree (hK.and_eq_zero .to_client .established (by decide))
    rw [DetectFlowMatch_eq_count, DetectFlowMatch_eq_count]
    simp only [specCount, hs, hc, hst, or_true]

/-- C9 at the single bit masks, on the condition parsed from `to_client,stateless`, with
two packets that differ in the established bit only. -/
theorem stateless_any_state_witness :
    flowPktBits.Separate ∧
    DetectFlowParse true flowPktBits "to_client,stateless" = some ⟨0x0a, 2⟩ ∧
    DetectFlowMatch flowPktBits () () ⟨0x02⟩ () ⟨0, ⟨0x0a, 2⟩⟩
      = DetectFlowMatch flowPktBits () () ⟨0x06⟩ () ⟨0, ⟨0x0a, 2⟩⟩ :=
  ⟨by decide, by decide,
   (stateless_any_state true flowPktBits (by decide) () () () 0).2 "to_client,stateless"
     ⟨0x0a, 2⟩ (by decide) (by decide) ⟨0x02⟩ ⟨0x06⟩ (by
       intro i hi
       have h2 : i ≠ 2 := by
         rintro rfl
         exact absurd hi (by decide)
       show Nat.testBit 2 i = Nat.testBit 6 i
       have e2 : (2 : Nat) = 2 ^ 1 := rfl
       have e6 : (6 : Nat) = 2 ^ 1 ||| 2 ^ 2 := rfl
       rw [e6, Nat.testBit_or, ← e2, Nat.testBit_two_pow_of_ne (Ne.symm h2), Bool.or_false])⟩

/-! ## Order of the options -/

/-- C10: the order of the tokens does not matter. For every list of strings (in particular
every list of one to three tokens, recognised or not) and every permutation of it, the parser
gives the same result on the two lists joined by commas: both fail, or both succeed with
equal flags and equal `match_cnt`. -/
theorem DetectFlowParse_perm (vt : Bool) (K : FlowPkt) (hK : K.Separate) (l₁ l₂ : List String)
    (h : l₁.Perm l₂) :
    DetectFlowParse vt K (",".intercalate l₁) = DetectFlowParse vt K (",".intercalate l₂) := by
  by_cases hne : l₁ = []
  · subst hne
    rw [List.Perm.nil_eq h]
  · have hne₂ : l₂ ≠ [] := fun e => hne (List.Perm.eq_nil (e ▸ h))
    have hp : ((l₁.map String.data).flatMap splitComma).Perm
        ((l₂.map String.data).flatMap splitComma) := (h.map _).flatMap_right _
    rw [DetectFlowParse_eq_pieces, DetectFlowParse_eq_pieces, intercalate_comma_data,
      intercalate_comma_data, splitComma_joinComma_any _ (by simpa using hne),
      splitComma_joinComma_any _ (by simpa using hne₂), hp.length_eq,
      parsePieces_perm hK hp]

/-- C10 at `to_client,stateless` and `stateless,to_client`, the inputs compared by the unit
test `DetectFlowTestParse09`. -/
theorem DetectFlowParse_perm_witness :
    flowPktBits.Separate ∧
    DetectFlowParse true flowPktBits "to_client,stateless"
      = DetectFlowParse true flowPktBits "stateless,to_client" :=
  ⟨by decide,
   DetectFlowParse_perm true flowPktBits (by decide) ["to_client", "stateless"]
     ["stateless", "to_client"] (List.Perm.swap _ _ _)⟩

/-! ## Synonyms -/

/-- C11: synonyms cannot be told apart after parsing. When in a list of pieces any of the
pieces `from_server` are replaced by `to_client` and any of the pieces `from_client` by
`to_server` (white space around the word kept), the parser gives the same result on the two
lists joined by commas: the same failure, or the same flags and the same `match_cnt`. -/
theorem DetectFlowParse_synonym (vt : Bool) (K : FlowPkt) (l₁ l₂ : List String)
    (h : List.Forall₂ (SynonymStep vt) l₁ l₂) :
    DetectFlowParse vt K (",".intercalate l₁) = DetectFlowParse vt K (",".intercalate l₂) := by
  cases h with
  | nil => rfl
  | cons hab hrest =>
    have hall := synonymStep_flatMap K (List.Forall₂.cons hab hrest)
    rw [DetectFlowParse_eq_pieces, DetectFlowParse_eq_pieces, intercalate_comma_data,
      intercalate_comma_data, splitComma_joinComma_any _ (by simp),
      splitComma_joinComma_any _ (by simp), hall.length_eq, parsePieces_congr K hall]

/-- C11 at `from_server,stateless` and `to_client,stateless`, the inputs of the unit tests
`DetectFlowTestParse10` and `DetectFlowTestParse09`. -/
theorem DetectFlowParse_synonym_witness :
    DetectFlowParse true flowPktBits "from_server,stateless"
      = DetectFlowParse true flowPktBits "to_client,stateless" :=
  DetectFlowParse_synonym true flowPktBits ["from_server", "stateless"] ["to_client", "stateless"]
    (List.Forall₂.cons (Or.inr ⟨[], [], by simp, by simp, Or.inl ⟨rfl, rfl⟩⟩)
      (List.Forall₂.cons (Or.inl rfl) List.Forall₂.nil))

/-! ## White space padding -/

/-- C12: white space padding is ignored. For every list of comma-free tokens, each given
with a run of white space in front of it and a run behind it (runs of spaces, tabs,
newlines or other characters of the class `\s` of the library, possibly empty), the parser
gives the same result on the padded tokens joined by commas as on the bare tokens joined
by commas. -/
theorem DetectFlowParse_padding (vt : Bool) (K : FlowPkt) (l : List (String × String × String))
    (hpad : ∀ x ∈ l, (∀ c ∈ x.1.data, pcreSpace vt c = true) ∧
      (∀ c ∈ x.2.2.data, pcreSpace vt c = true))
    (hcomma : ∀ x ∈ l, ',' ∉ x.2.1.data) :
    DetectFlowParse vt K (",".intercalate (l.map (fun x => x.1 ++ x.2.1 ++ x.2.2)))
      = DetectFlowParse vt K (",".intercalate (l.map (fun x => x.2.1))) := by
  by_cases hne : l = []
  · subst hne; rfl
  · have hc₁ : ∀ c ∈ l.map (fun x => x.1 ++ x.2.1 ++ x.2.2), ',' ∉ c.data := by
      intro c hc
      obtain ⟨x, hx, rfl⟩ := List.mem_map.1 hc
      simp only [String.data_append, List.mem_append, not_or]
      exact ⟨⟨fun hm => ne_comma_of_space ((hpad x hx).1 _ hm) rfl, hcomma x hx⟩,
        fun hm => ne_comma_of_space ((hpad x hx).2 _ hm) rfl⟩
    have hc₂ : ∀ c ∈ l.map (fun x => x.2.1), ',' ∉ c.data := by
      intro c hc
      obtain ⟨x, hx, rfl⟩ := List.mem_map.1 hc
      exact hcomma x hx
    rw [DetectFlowParse_eq_split, DetectFlowParse_eq_split,
      intercalate_pieces_split _ (by simpa using hne) hc₁,
      intercalate_pieces_split _ (by simpa using hne) hc₂, trimWords_pad l hpad]
    simp only [List.length_map]

/-- C12 at ` from_server , stateless `, the input of the unit test
`DetectFlowTestParse11`. -/
theorem DetectFlowParse_padding_witness :
    DetectFlowParse true flowPktBits " from_server , stateless "
      = DetectFlowParse true flowPktBits "from_server,stateless" :=
  DetectFlowParse_padding true flowPktBits [(" ", "from_server", " "), (" ", "stateless", " ")]
    (by decide) (by decide)

/-! ## Invariants of a parsed condition -/

/-- C13: in the flags of every condition that the parser returns, at most one flag is set in
each of the groups established / stateless, to-server / to-client and stream-only /
no-stream. -/
theorem DetectFlowParse_exclusive (vt : Bool) (K : FlowPkt) (hK : K.Separate) (flowstr : String)
    (fd : DetectFlowData) (h : DetectFlowParse vt K flowstr = some fd) :
    ¬ (hasFlag fd.flags K.FLOW_PKT_ESTABLISHED ∧ hasFlag fd.flags K.FLOW_PKT_STATELESS) ∧
    ¬ (hasFlag fd.flags K.FLOW_PKT_TOSERVER ∧ hasFlag fd.flags K.FLOW_PKT_TOCLIENT) ∧
    ¬ (hasFlag fd.flags K.FLOW_PKT_STREAMONLY ∧ hasFlag fd.flags K.FLOW_PKT_NOSTREAM) := by
  obtain ⟨toks, -, -, hnd, -, rfl⟩ := DetectFlowParse_inv hK h
  exact ⟨flagsOf_exclusive hK hnd .established .stateless rfl (by decide),
    flagsOf_exclusive hK hnd .to_server .to_client rfl (by decide),
    flagsOf_exclusive hK hnd .stream_only .no_stream rfl (by decide)⟩

/-- C13 at `from_server,established,no_stream`, the input of the unit test
`DetectFlowTestParse20`. -/
theorem DetectFlowParse_exclusive_witness :
    flowPktBits.Separate ∧
    DetectFlowParse true flowPktBits "from_server,established,no_stream" = some ⟨0x46, 3⟩ ∧
    ¬ (hasFlag 0x46 0x04 ∧ hasFlag 0x46 0x08) :=
  ⟨by decide, by decide,
   (DetectFlowParse_exclusive true flowPktBits (by decide) "from_server,established,no_stream"
     ⟨0x46, 3⟩ (by decide)).1⟩

/-- C14: for every condition that the parser returns, `match_cnt` is the number of options
written in the input (one more than the number of commas), it is the number of bits set in
the flags when every mask is a single bit, and it lies between 1 and 3. -/
theorem DetectFlowParse_match_cnt (vt : Bool) (K : FlowPkt) (hK : K.Separate) (hB : K.SingleBits)
    (flowstr : String) (fd : DetectFlowData) (h : DetectFlowParse vt K flowstr = some fd) :
    fd.match_cnt = flowstr.data.count ',' + 1 ∧ fd.match_cnt = popcount fd.flags ∧
    1 ≤ fd.match_cnt ∧ fd.match_cnt ≤ 3 := by
  obtain ⟨toks, hne, h3, hnd, htw, rfl⟩ := DetectFlowParse_inv hK h
  have hl := trimWords_length _ _ htw
  rw [List.length_map, splitComma_length] at hl
  refine ⟨hl, (popcount_flagsOf hK hB toks hnd).symm, ?_, h3⟩
  exact Nat.pos_of_ne_zero (fun e => hne (List.length_eq_zero.1 e))

/-- C14 at `from_server,established,stream_only`, the input of the unit test
`DetectFlowTestParse18`. -/
theorem DetectFlowParse_match_cnt_witness :
    flowPktBits.Separate ∧ flowPktBits.SingleBits ∧
    DetectFlowParse true flowPktBits "from_server,established,stream_only" = some ⟨0x86, 3⟩ ∧
    3 = popcount 0x86 :=
  ⟨by decide, flowPktBits_singleBits, by decide,
   (DetectFlowParse_match_cnt true flowPktBits (by decide) flowPktBits_singleBits
     "from_server,established,stream_only" ⟨0x86, 3⟩ (by decide)).2.1⟩

/-! ## The sticky buffer: how often the accessor runs -/

/-- C15, as stated, fails: when the accessor reports that there is no request line (or an
empty one), `GetData` returns `NULL` without storing anything, the buffer stays
uncomputed, and the second call in the same scope runs the accessor a second time. -/
theorem GetData_accessor_twice :
    ¬ ((GetDataCalls (sipApi (0, 0, 0)) [] () 0 () 0 2 emptyCtx).2 ≤ 1) ∧
    ((GetData (sipApi (0, 0, 0)) emptyCtx [] () 0 () 0).det_ctx 0).inspect = 0 ∧
    ¬ ((GetDataCalls (sipApi (1, 0x1000, 0)) [] () 0 () 0 2 emptyCtx).2 ≤ 1) := by
  decide

/-- C15, amended: over every sequence of `n` calls of `GetData` in one scope, the accessor
does not run at all when the buffer is computed already; it runs at most once when it
yields data (return value 1, pointer not `NULL`, length not 0) and the buffer that is set
up and transformed has its `inspect` pointer set; and when it reports no data or empty data
for a buffer that is not computed, nothing is stored and each of the `n` calls runs
it. -/
theorem GetDataCalls_accessor_runs {Buf Transforms Tx Flow : Type}
    (api : SipBufferApi Buf Transforms Tx) (transforms : Transforms) (f : Flow)
    (flow_flags : Nat) (txv : Tx) (list_id : Int) (det_ctx : Int → Buf) (n : Nat) :
    (api.inspect (det_ctx list_id) ≠ 0 →
      (GetDataCalls api transforms f flow_flags txv list_id n det_ctx).2 = 0) ∧
    (api.inspect (det_ctx list_id) = 0 →
      (api.rs_sip_tx_get_request_line txv).1 = 1 →
      (api.rs_sip_tx_get_request_line txv).2.1 ≠ 0 →
      (api.rs_sip_tx_get_request_line txv).2.2 ≠ 0 →
      api.inspect (api.InspectionBufferApplyTransforms
        (api.InspectionBufferSetup (det_ctx list_id)
          (api.rs_sip_tx_get_request_line txv).2.1
          (api.rs_sip_tx_get_request_line txv).2.2) transforms) ≠ 0 →
      (GetDataCalls api transforms f flow_flags txv list_id n det_ctx).2 ≤ 1) ∧
    (api.inspect (det_ctx list_id) = 0 →
      ((api.rs_sip_tx_get_request_line txv).1 ≠ 1 ∨
        (api.rs_sip_tx_get_request_line txv).2.1 = 0 ∨
        (api.rs_sip_tx_get_request_line txv).2.2 = 0) →
      GetDataCalls api transforms f flow_flags txv list_id n det_ctx = (det_ctx, n)) := by
  refine ⟨fun h => ?_, fun h h1 h2 h3 hs => ?_, fun h hacc => ?_⟩
  · rw [GetDataCalls_cached api transforms f flow_flags txv list_id n det_ctx h]
  · cases n with
    | zero => simp [GetDataCalls]
    | succ n =>
      simp only [GetDataCalls,
        GetData_present api det_ctx transforms f flow_flags txv list_id h h1 h2 h3]
      rw [GetDataCalls_cached api transforms f flow_flags txv list_id n _
        (by rw [Function.update_same]; exact hs)]
      exact Nat.le_refl 1
  · exact GetDataCalls_absent api transforms f flow_flags txv list_id det_ctx h hacc n

/-- C15, amended, at three calls with a request line of 12 bytes at address `0x1000` and no
transform: one accessor run. -/
theorem GetDataCalls_accessor_runs_witness :
    (GetDataCalls (sipApi (1, 0x1000, 12)) [] () 0 () 0 3 emptyCtx).2 ≤ 1 :=
  (GetDataCalls_accessor_runs (sipApi (1, 0x1000, 12)) [] () 0 () 0 emptyCtx 3).2.1
    (by decide) (by decide) (by decide) (by decide) (by decide)

/-! ## The sticky buffer: result of a call -/

/-- C16: for a buffer that is not computed yet, `GetData` returns `NULL` whenever the
accessor does not return 1, or returns 1 with a `NULL` pointer or a zero length; and when
the accessor returns 1 with a pointer that is not `NULL` and a length that is not 0, it
returns the buffer set up with exactly this pointer and length and then passed through the
transforms. -/
theorem GetData_result {Buf Transforms Tx Flow : Type} (api : SipBufferApi Buf Transforms Tx)
    (det_ctx : Int → Buf) (transforms : Transforms) (f : Flow) (flow_flags : Nat)
    (txv : Tx) (list_id : Int) (h : api.inspect (det_ctx list_id) = 0) :
    (((api.rs_sip_tx_get_request_line txv).1 ≠ 1 ∨
        (api.rs_sip_tx_get_request_line txv).2.1 = 0 ∨
        (api.rs_sip_tx_get_request_line txv).2.2 = 0) →
      (GetData api det_ctx transforms f flow_flags txv list_id).ret = none) ∧
    ((api.rs_sip_tx_get_request_line txv).1 = 1 →
      (api.rs_sip_tx_get_request_line txv).2.1 ≠ 0 →
      (api.rs_sip_tx_get_request_line txv).2.2 ≠ 0 →
      (GetData api det_ctx transforms f flow_flags txv list_id).ret
        = some (api.InspectionBufferApplyTransforms
            (api.InspectionBufferSetup (det_ctx list_id)
              (api.rs_sip_tx_get_request_line txv).2.1
              (api.rs_sip_tx_get_request_line txv).2.2) transforms)) := by
  constructor
  · intro hacc
    rw [GetData_absent api det_ctx transforms f flow_flags txv list_id h hacc]
  · intro h1 h2 h3
    rw [GetData_present api det_ctx transforms f flow_flags txv list_id h h1 h2 h3]

/-- C16 at an accessor without data and at one with a request line of 12 bytes at address
`0x1000`, no transform. -/
theorem GetData_result_witness :
    (GetData (sipApi (0, 0, 0)) emptyCtx [] () 0 () 0).ret = none ∧
    (GetData (sipApi (1, 0x1000, 12)) emptyCtx [] () 0 () 0).ret = some ⟨0x1000, 12⟩ :=
  ⟨(GetData_result (sipApi (0, 0, 0)) emptyCtx [] () 0 () 0 rfl).1 (Or.inl (by decide)),
   (GetData_result (sipApi (1, 0x1000, 12)) emptyCtx [] () 0 () 0 rfl).2
     rfl (by decide) (by decide)⟩

/-! ## Setup of the keyword -/

/-- C17: on every option string that the parser rejects, `DetectFlowSetup` returns -1 and
hands back the signature as it was; on every option string that the parser accepts, with
the allocation of the list entry succeeding, it returns 0 and the signature is the old one
with one entry appended, of type `DETECT_FLOW` and with the parsed condition as context. -/
theorem DetectFlowSetup_result {DetectEngineCtx Signature SigMatchPtr : Type}
    (vt : Bool) (K : FlowPkt)
    (DETECT_FLOW : Nat) (SigMatchAppend : Signature → SigMatchPtr → SigMatch → Signature)
    (de_ctx : DetectEngineCtx) (s : Signature) (m : SigMatchPtr) (flowstr : String) :
    (DetectFlowParse vt K flowstr = none →
      ∀ alloc : Bool,
        DetectFlowSetup vt K DETECT_FLOW alloc SigMatchAppend de_ctx s m flowstr = (-1, s)) ∧
    (∀ fd : DetectFlowData, DetectFlowParse vt K flowstr = some fd →
      DetectFlowSetup vt K DETECT_FLOW true SigMatchAppend de_ctx s m flowstr
        = (0, SigMatchAppend s m ⟨DETECT_FLOW, fd⟩)) := by
  constructor
  · intro h alloc
    simp only [DetectFlowSetup, h]
  · intro fd h
    simp only [DetectFlowSetup, h, if_true]

/-- C17 with the match chain as a list: `established,to_client` adds one entry at the end,
`to_client,to_server` leaves the chain as it was. -/
theorem DetectFlowSetup_result_witness :
    DetectFlowSetup true flowPktBits 7 true sigMatchAppendList () [⟨1, ⟨0, 0⟩⟩] ()
        "established,to_client" = (0, [⟨1, ⟨0, 0⟩⟩, ⟨7, ⟨0x06, 2⟩⟩]) ∧
    DetectFlowSetup true flowPktBits 7 true sigMatchAppendList () [⟨1, ⟨0, 0⟩⟩] ()
        "to_client,to_server" = (-1, [⟨1, ⟨0, 0⟩⟩]) :=
  ⟨(DetectFlowSetup_result true flowPktBits 7 sigMatchAppendList () [⟨1, ⟨0, 0⟩⟩] ()
      "established,to_client").2 ⟨0x06, 2⟩ (by decide),
   (DetectFlowSetup_result true flowPktBits 7 sigMatchAppendList () [⟨1, ⟨0, 0⟩⟩] ()
      "to_client,to_server").1 (by decide) true⟩

/-! ## Purity of the matcher -/

/-- C18: `DetectFlowMatch` is pure. Its result is the comparison of the count fixed by the
flags of the condition and the flow flags of the packet with `match_cnt`, so it is a
function of these three values only: two calls that agree on them give the same result,
whatever the thread, pattern matcher thread, signature and entry type are. The run with
explicit memory returns that same value and leaves the flags and `match_cnt` of the
condition, the whole list entry and the packet as they were. The result is 0 or 1, never
the error value -1. -/
theorem DetectFlowMatch_pure {ThreadVars PatternMatcherThread Signature : Type}
    {ThreadVars' PatternMatcherThread' Signature' : Type} (K : FlowPkt)
    (t : ThreadVars) (pmt : PatternMatcherThread) (s : Signature)
    (t' : ThreadVars') (pmt' : PatternMatcherThread') (s' : Signature')
    (p p' : Packet) (m m' : SigMatch) (hp : p.flowflags = p'.flowflags)
    (hf : m.ctx.flags = m'.ctx.flags) (hc : m.ctx.match_cnt = m'.ctx.match_cnt) :
    DetectFlowMatch K t pmt p s m = DetectFlowMatch K t' pmt' p' s' m' ∧
    DetectFlowMatch K t pmt p s m
      = (if specCount K m.ctx.flags p.flowflags = m.ctx.match_cnt then 1 else 0) ∧
    (DetectFlowMatchMem K t pmt p s m).1 = DetectFlowMatch K t pmt p s m ∧
    (DetectFlowMatchMem K t pmt p s m).2.2.ctx.flags = m.ctx.flags ∧
    (DetectFlowMatchMem K t pmt p s m).2.2.ctx.match_cnt = m.ctx.match_cnt ∧
    (DetectFlowMatchMem K t pmt p s m).2 = (p, m) ∧
    (DetectFlowMatch K t pmt p s m = 0 ∨ DetectFlowMatch K t pmt p s m = 1) ∧
    DetectFlowMatch K t pmt p s m ≠ -1 := by
  have e : ∀ {A B C : Type} (a : A) (b : B) (c : C) (q : Packet) (n : SigMatch),
      DetectFlowMatch K a b q c n
        = if specCount K n.ctx.flags q.flowflags = n.ctx.match_cnt then 1 else 0 :=
    fun a b c q n => DetectFlowMatch_eq_count K a b q c n.type n.ctx
  have hm := DetectFlowMatchMem_frame K t pmt p s m
  refine ⟨?_, e t pmt s p m, DetectFlowMatchMem_ret K t pmt p s m, ?_, ?_, hm, ?_, ?_⟩
  · rw [e, e, hp, hf, hc]
  · rw [hm]
  · rw [hm]
  · rw [e]; split <;> simp
  · rw [e]; split <;> simp

/-- C18 at two calls that differ in the thread, pattern matcher thread, signature and entry
type arguments: same result, and the first call leaves its condition `⟨0x06, 2⟩` and its
packet as they were. -/
theorem DetectFlowMatch_pure_witness :
    DetectFlowMatch flowPktBits () () ⟨0x06⟩ () ⟨0, ⟨0x06, 2⟩⟩
      = DetectFlowMatch flowPktBits (1 : Nat) "pmt" ⟨0x06⟩ [()] ⟨5, ⟨0x06, 2⟩⟩ ∧
    DetectFlowMatchMem flowPktBits () () ⟨0x06⟩ () ⟨0, ⟨0x06, 2⟩⟩
      = (1, ⟨0x06⟩, ⟨0, ⟨0x06, 2⟩⟩) :=
  ⟨(DetectFlowMatch_pure flowPktBits () () () (1 : Nat) "pmt" [()] ⟨0x06⟩ ⟨0x06⟩
    ⟨0, ⟨0x06, 2⟩⟩ ⟨5, ⟨0x06, 2⟩⟩ rfl rfl rfl).1, by decide⟩

/-! ## The sticky buffer: later calls -/

/-- C19: when the buffer of the list id is computed (its `inspect` pointer is set),
`GetData` returns this buffer, leaves the thread context as it is, and runs neither the
accessor nor the transforms; in particular, after a call of `GetData` that returned a
buffer with `inspect` set, the next call in the same scope returns the same buffer, from
the same thread context, without accessor and without transforms. -/
theorem GetData_again {Buf Transforms Tx Flow : Type} (api : SipBufferApi Buf Transforms Tx)
    (det_ctx : Int → Buf) (transforms : Transforms) (f : Flow) (flow_flags : Nat)
    (txv : Tx) (list_id : Int) :
    (api.inspect (det_ctx list_id) ≠ 0 →
      GetData api det_ctx transforms f flow_flags txv list_id
        = ⟨some (det_ctx list_id), det_ctx, 0, 0⟩) ∧
    (∀ buffer : Buf,
      (GetData api det_ctx transforms f flow_flags txv list_id).ret = some buffer →
      api.inspect buffer ≠ 0 →
      GetData api (GetData api det_ctx transforms f flow_flags txv list_id).det_ctx
          transforms f flow_flags txv list_id
        = ⟨some buffer, (GetData api det_ctx transforms f flow_flags txv list_id).det_ctx,
            0, 0⟩) := by
  refine ⟨GetData_cached api det_ctx transforms f flow_flags txv list_id, ?_⟩
  intro buffer hret hins
  by_cases h : api.inspect (det_ctx list_id) = 0
  · by_cases hacc : (api.rs_sip_tx_get_request_line txv).1 ≠ 1 ∨
        (api.rs_sip_tx_get_request_line txv).2.1 = 0 ∨
        (api.rs_sip_tx_get_request_line txv).2.2 = 0
    · rw [GetData_absent api det_ctx transforms f flow_flags txv list_id h hacc] at hret
      exact absurd hret (by simp)
    · simp only [not_or, not_not] at hacc
      obtain ⟨h1, h2, h3⟩ := hacc
      rw [GetData_present api det_ctx transforms f flow_flags txv list_id h h1 h2 h3] at hret ⊢
      simp only [Option.some.injEq] at hret
      rw [hret]
      have e := GetData_cached api (Function.update det_ctx list_id buffer) transforms f
        flow_flags txv list_id (by rw [Function.update_same]; exact hins)
      rw [Function.update_same] at e
      exact e
  · rw [GetData_cached api det_ctx transforms f flow_flags txv list_id h] at hret ⊢
    simp only [Option.some.injEq] at hret
    rw [← hret] at hins ⊢
    exact GetData_cached api det_ctx transforms f flow_flags txv list_id hins

/-- C19 at a request line of 12 bytes at address `0x1000`, no transform: the second call
gives the buffer of the first one without running the accessor. -/
theorem GetData_again_witness :
    (GetData (sipApi (1, 0x1000, 12))
        (GetData (sipApi (1, 0x1000, 12)) emptyCtx [] () 0 () 0).det_ctx [] () 0 () 0).ret
      = some ⟨0x1000, 12⟩ ∧
    (GetData (sipApi (1, 0x1000, 12))
        (GetData (sipApi (1, 0x1000, 12)) emptyCtx [] () 0 () 0).det_ctx [] () 0 () 0
      ).accessor_calls = 0 :=
  have h := (GetData_again (sipApi (1, 0x1000, 12)) emptyCtx [] () 0 () 0).2 ⟨0x1000, 12⟩
    (by decide) (by decide)
  ⟨by rw [h], by rw [h]⟩

/-! ## The count against the requirements -/

/-- C20: whichever way the class `\s` of the library treats VT, for every condition parsed
from an input none of whose pieces is `stream_only` or `no_stream` (with or without white
space of that class around it), and for every packet, the matcher returns 1 exactly when every requirement of
the condition holds on the packet: to-server required implies the packet is to-server,
to-client required implies the packet is to-client, established required implies the packet
is established. -/
theorem DetectFlowMatch_iff_requirements {ThreadVars PatternMatcherThread Signature : Type}
    (vt : Bool) (K : FlowPkt) (hK : K.Separate) (pieces : List String)
    (hcomma : ∀ c ∈ pieces, ',' ∉ c.data)
    (hns : ∀ c ∈ pieces,
      ¬ IsPadded vt c.data "stream_only".data ∧ ¬ IsPadded vt c.data "no_stream".data)
    (fd : DetectFlowData) (hp : DetectFlowParse vt K (",".intercalate pieces) = some fd)
    (t : ThreadVars) (pmt : PatternMatcherThread) (p : Packet) (s : Signature) (ty : Nat) :
    DetectFlowMatch K t pmt p s ⟨ty, fd⟩ = 1 ↔
      (hasFlag fd.flags K.FLOW_PKT_TOSERVER → hasFlag p.flowflags K.FLOW_PKT_TOSERVER) ∧
      (hasFlag fd.flags K.FLOW_PKT_TOCLIENT → hasFlag p.flowflags K.FLOW_PKT_TOCLIENT) ∧
      (hasFlag fd.flags K.FLOW_PKT_ESTABLISHED →
        hasFlag p.flowflags K.FLOW_PKT_ESTABLISHED) := by
  obtain ⟨toks, -, -, hnd, htw, rfl⟩ := DetectFlowParse_inv hK hp
  have hne : pieces ≠ [] := by
    rintro rfl
    rw [show ",".intercalate [] = "" from rfl, DetectFlowParse_empty] at hp
    exact absurd hp (by simp)
  rw [intercalate_pieces_split pieces hne hcomma] at htw
  have hstream : FlowGroup.stream ∉ toks.map FlowToken.group := by
    intro hm
    obtain ⟨u, hu, hg⟩ := List.mem_map.1 hm
    obtain ⟨c, hc, e⟩ := trimWords_mem_rev _ _ htw u.name.data
      (List.mem_map.2 ⟨u, hu, rfl⟩)
    obtain ⟨c', hc', rfl⟩ := List.mem_map.1 hc
    have hpad := trimWord_padded e
    cases u <;> first
      | exact absurd hg (by decide)
      | exact (hns c' hc').1 hpad
      | exact (hns c' hc').2 hpad
  rw [DetectFlowMatch_eq_count, ← specCount_eq_length_iff hK toks hnd hstream p.flowflags]
  constructor
  · intro h
    by_contra hn
    rw [if_neg hn] at h
    exact absurd h (by decide)
  · intro h
    rw [if_pos h]

/-- C20 at `established,to_client` with a packet that has both flags. -/
theorem DetectFlowMatch_iff_requirements_witness :
    flowPktBits.Separate ∧
    DetectFlowParse true flowPktBits "established,to_client" = some ⟨0x06, 2⟩ ∧
    DetectFlowMatch flowPktBits () () ⟨0x06⟩ () ⟨0, ⟨0x06, 2⟩⟩ = 1 :=
  ⟨by decide, by decide,
   (DetectFlowMatch_iff_requirements true flowPktBits (by decide) ["established", "to_client"]
     (by decide)
     (by
       intro c hc
       simp only [List.mem_cons, List.mem_singleton, List.not_mem_nil, or_false] at hc
       rcases hc with rfl | rfl <;>
         exact ⟨fun h => absurd (trimWord_of_padded_name .stream_only h) (by decide),
           fun h => absurd (trimWord_of_padded_name .no_stream h) (by decide)⟩)
     ⟨0x06, 2⟩ (by decide) () () ⟨0x06⟩ () 0).2
     ⟨fun h => absurd h (by decide), fun _ => by decide, fun _ => by decide⟩⟩

/-! ## Empty option positions -/

/-- C21: an input with an empty option position is rejected, whatever the other pieces
are: nothing or only white space in front of the first comma (a leading comma), behind the
last comma (a trailing comma), or between two commas. -/
theorem DetectFlowParse_empty_position (vt : Bool) (K : FlowPkt) (a ws r : List Char)
    (h : ∀ x ∈ ws, isspace x = true) :
    DetectFlowParse vt K (String.mk (ws ++ ',' :: r)) = none ∧
    DetectFlowParse vt K (String.mk (a ++ ',' :: ws)) = none ∧
    DetectFlowParse vt K (String.mk (a ++ ',' :: (ws ++ ',' :: r))) = none := by
  refine ⟨?_, ?_, ?_⟩
  · apply DetectFlowParse_bad_piece K _ ws _ (trimWord_blank ws h)
    show ws ∈ splitComma (ws ++ ',' :: r)
    rw [splitComma_append_comma_any, splitComma_blank ws h]
    simp
  · apply DetectFlowParse_bad_piece K _ ws _ (trimWord_blank ws h)
    show ws ∈ splitComma (a ++ ',' :: ws)
    rw [splitComma_append_comma_any, splitComma_blank ws h]
    simp
  · apply DetectFlowParse_bad_piece K _ ws _ (trimWord_blank ws h)
    show ws ∈ splitComma (a ++ ',' :: (ws ++ ',' :: r))
    rw [splitComma_append_comma_any, splitComma_append_comma_any, splitComma_blank ws h]
    simp

/-- C21 at `,established`, at `established,` and at `established, ,to_client`. -/
theorem DetectFlowParse_empty_position_witness :
    DetectFlowParse true flowPktBits ",established" = none ∧
    DetectFlowParse true flowPktBits "established," = none ∧
    DetectFlowParse true flowPktBits "established, ,to_client" = none :=
  ⟨(DetectFlowParse_empty_position true flowPktBits [] [] "established".data (by decide)).1,
   (DetectFlowParse_empty_position true flowPktBits "established".data [] [] (by decide)).2.1,
   (DetectFlowParse_empty_position true flowPktBits "established".data [' '] "to_client".data
     (by decide)).2.2⟩

/-! ## Case and whole words -/

/-- C22: option words are compared with their case and as whole words. A list of comma-free
pieces joined by commas is rejected as soon as one piece is an option word with the case of
some letters changed, or an option word with white space put inside it. -/
theorem DetectFlowParse_case_whole_word (vt : Bool) (K : FlowPkt) (pieces : List String)
    (hcomma : ∀ c ∈ pieces, ',' ∉ c.data)
    (hvar : ∃ c ∈ pieces, ∃ t : FlowToken,
      (c.data ≠ t.name.data ∧ c.data.map Char.toLower = t.name.data) ∨
      (∃ x ws y : List Char, x ≠ [] ∧ y ≠ [] ∧ ws ≠ [] ∧ (∀ s ∈ ws, isspace s = true) ∧
        x ++ y = t.name.data ∧ c.data = x ++ ws ++ y)) :
    DetectFlowParse vt K (",".intercalate pieces) = none := by
  obtain ⟨c, hc, t, hv⟩ := hvar
  have hne : pieces ≠ [] := List.ne_nil_of_mem hc
  apply DetectFlowParse_bad_piece K _ c.data
  · rw [intercalate_pieces_split pieces hne hcomma]
    exact List.mem_map_of_mem _ hc
  · rcases hv with ⟨hne', hlow⟩ | ⟨x, ws, y, hx, hy, hws, hsp, hxy, e⟩
    · exact trimWord_case_variant c.data t hne' hlow
    · rw [e]
      exact trimWord_broken x ws y t hx hy hws hsp hxy

/-- C22 at `Established`, at `TO_SERVER` and at `to _client`. -/
theorem DetectFlowParse_case_whole_word_witness :
    DetectFlowParse true flowPktBits "Established" = none ∧
    DetectFlowParse true flowPktBits "TO_SERVER" = none ∧
    DetectFlowParse true flowPktBits "to _client" = none :=
  ⟨DetectFlowParse_case_whole_word true flowPktBits ["Established"] (by decide)
      ⟨"Established", by decide, .established, Or.inl ⟨by decide, by decide⟩⟩,
   DetectFlowParse_case_whole_word true flowPktBits ["TO_SERVER"] (by decide)
      ⟨"TO_SERVER", by decide, .to_server, Or.inl ⟨by decide, by decide⟩⟩,
   DetectFlowParse_case_whole_word true flowPktBits ["to _client"] (by decide)
      ⟨"to _client", by decide, .to_client,
        Or.inr ⟨"to".data, [' '], "_client".data, by decide, by decide, by decide, by decide,
          by decide, by decide⟩⟩⟩

/-! ## Packet bits that the matcher does not read -/

/-- C23: for every condition, two packets whose flow flags agree on the to-server, the
to-client and the established mask get the same result from the matcher; in particular
bits added to a packet outside these three masks never change the result. -/
theorem DetectFlowMatch_noninterference {ThreadVars PatternMatcherThread Signature : Type}
    (K : FlowPkt) (t : ThreadVars) (pmt : PatternMatcherThread) (s : Signature)
    (m : SigMatch) :
    (∀ p₁ p₂ : Packet,
      p₁.flowflags &&& K.FLOW_PKT_TOSERVER = p₂.flowflags &&& K.FLOW_PKT_TOSERVER →
      p₁.flowflags &&& K.FLOW_PKT_TOCLIENT = p₂.flowflags &&& K.FLOW_PKT_TOCLIENT →
      p₁.flowflags &&& K.FLOW_PKT_ESTABLISHED = p₂.flowflags &&& K.FLOW_PKT_ESTABLISHED →
      DetectFlowMatch K t pmt p₁ s m = DetectFlowMatch K t pmt p₂ s m) ∧
    (∀ (p : Packet) (extra : Nat),
      extra &&& K.FLOW_PKT_TOSERVER = 0 → extra &&& K.FLOW_PKT_TOCLIENT = 0 →
      extra &&& K.FLOW_PKT_ESTABLISHED = 0 →
      DetectFlowMatch K t pmt ⟨p.flowflags ||| extra⟩ s m = DetectFlowMatch K t pmt p s m) := by
  have main : ∀ p₁ p₂ : Packet,
      p₁.flowflags &&& K.FLOW_PKT_TOSERVER = p₂.flowflags &&& K.FLOW_PKT_TOSERVER →
      p₁.flowflags &&& K.FLOW_PKT_TOCLIENT = p₂.flowflags &&& K.FLOW_PKT_TOCLIENT →
      p₁.flowflags &&& K.FLOW_PKT_ESTABLISHED = p₂.flowflags &&& K.FLOW_PKT_ESTABLISHED →
      DetectFlowMatch K t pmt p₁ s m = DetectFlowMatch K t pmt p₂ s m := by
    intro p₁ p₂ h1 h2 h3
    rw [show m = ⟨m.type, m.ctx⟩ from rfl, DetectFlowMatch_eq_count,
      DetectFlowMatch_eq_count]
    simp only [specCount, hasFlag, h1, h2, h3]
  refine ⟨main, fun p extra e1 e2 e3 => main _ _ ?_ ?_ ?_⟩
  · show (p.flowflags ||| extra) &&& _ = _
    rw [Nat.and_distrib_right, e1, Nat.or_zero]
  · show (p.flowflags ||| extra) &&& _ = _
    rw [Nat.and_distrib_right, e2, Nat.or_zero]
  · show (p.flowflags ||| extra) &&& _ = _
    rw [Nat.and_distrib_right, e3, Nat.or_zero]

/-- C23 at the single bit masks: the stateless, no-stream and stream-only bits on the
packet do not change the result for the condition of `established,to_client`. -/
theorem DetectFlowMatch_noninterference_witness :
    DetectFlowMatch flowPktBits () () ⟨0x06 ||| 0xc8⟩ () ⟨0, ⟨0x06, 2⟩⟩
      = DetectFlowMatch flowPktBits () () ⟨0x06⟩ () ⟨0, ⟨0x06, 2⟩⟩ :=
  (DetectFlowMatch_noninterference flowPktBits () () () ⟨0, ⟨0x06, 2⟩⟩).2 ⟨0x06⟩ 0xc8
    (by decide) (by decide) (by decide)

end Suricata
